import Mathlib

/-!
Verification of the LogLine day-grouped append log.

The JavaScript sources are embedded shallowly: a Google Doc body is its
text, a `List Char`, with 1-based document indices (index `i` addresses the
character at list position `i - 1`, matching the Docs API where body content
starts at index 1).  Paragraph elements are recovered by splitting the text
after each newline; a paragraph whose text starts at position `p` has
`startIndex = p + 1` and `endIndex = startIndex + length`.
-/

namespace LogLine

/-- ASCII whitespace, as matched by the JavaScript `\s` class and `trim`
on the inputs considered here. -/
def isWs (c : Char) : Bool :=
  c = ' ' || c = '\t' || c = '\n' || c = '\r' || c = '\x0b' || c = '\x0c'

/-- Decimal digit, the regex `\d` class. -/
def isDigitC (c : Char) : Bool := '0' ≤ c && c ≤ '9'

/-- Word character, the regex `\w` class. -/
def isWordC (c : Char) : Bool :=
  isDigitC c || ('a' ≤ c && c ≤ 'z') || ('A' ≤ c && c ≤ 'Z') || c = '_'

/-- Characters of a string literal. -/
def strOf (s : String) : List Char := s.data

/-- Drop leading whitespace. -/
def trimL (s : List Char) : List Char := s.dropWhile isWs

/-- Drop trailing whitespace. -/
def trimR (s : List Char) : List Char := (s.reverse.dropWhile isWs).reverse

/-- JavaScript `String.prototype.trim`. -/
def trim (s : List Char) : List Char := trimR (trimL s)

/-- `pre n l` : `n` is a leading segment of `l`. -/
def pre : List Char → List Char → Bool
  | [], _ => true
  | _ :: _, [] => false
  | a :: as, b :: bs => a = b && pre as bs

/-- JavaScript `String.prototype.includes`: `n` occurs inside `l`. -/
def hasSub (n : List Char) : List Char → Bool
  | [] => pre n []
  | c :: t => pre n (c :: t) || hasSub n t

/-- Position of the first occurrence of `n` inside `l` (`indexOf`). -/
def subIdx (n : List Char) : List Char → Option Nat
  | [] => if pre n [] then some 0 else none
  | c :: t =>
    if pre n (c :: t) then some 0
    else (subIdx n t).map (· + 1)

/-- Split a document body into its paragraph texts: each chunk ends with
the newline that terminates it; a final chunk without a newline is kept. -/
def splitParas : List Char → List (List Char)
  | [] => []
  | c :: cs =>
    if c = '\n' then ['\n'] :: splitParas cs
    else
      match splitParas cs with
      | [] => [[c]]
      | p :: ps => (c :: p) :: ps

/-- JavaScript `String.prototype.split(sep)` for a one-character separator. -/
def splitOnC (sep : Char) : List Char → List (List Char)
  | [] => [[]]
  | c :: cs =>
    let r := splitOnC sep cs
    if c = sep then [] :: r
    else
      match r with
      | [] => [[c]]
      | l :: ls => (c :: l) :: ls

/-- Day names in the order of the alternation in the section-break regex
`/^(Monday|Tuesday|Wednesday|Thursday|Friday|Saturday|Sunday),/`. -/
def dayNamesRegex : List (List Char) :=
  [strOf "Monday", strOf "Tuesday", strOf "Wednesday", strOf "Thursday",
   strOf "Friday", strOf "Saturday", strOf "Sunday"]

/-- The trimmed paragraph text matches `/^(Monday|...|Sunday),/`. -/
def dayPat (t : List Char) : Bool :=
  dayNamesRegex.any fun d => pre (d ++ [',']) t

/-!  `findInsertPosition` (google-docs service).  The JS loop walks the
paragraph elements; `s` is the `startIndex` of the current paragraph, so its
`endIndex` is `s + p.length`. -/

/-- The main scan of `findInsertPosition`: look for a paragraph whose
trimmed text contains today's heading; afterwards track `endIndex - 1` of
every following paragraph until one matches the generic day pattern. -/
def findLoop (h : List Char) :
    List (List Char) → Nat → Bool → Option Nat → Bool × Option Nat
  | [], _, found, idx => (found, idx)
  | p :: ps, s, found, idx =>
    let t := trim p
    if hasSub h t then
      findLoop h ps (s + p.length) true (some (s + p.length - 1))
    else if found && dayPat t then (found, idx)
    else if found then
      findLoop h ps (s + p.length) found (some (s + p.length - 1))
    else findLoop h ps (s + p.length) found idx

/-- The fallback scan of `findInsertPosition`: the first paragraph whose
raw text contains the title marker; the result is its `endIndex`. -/
def titleLoop : List (List Char) → Nat → Option Nat
  | [], _ => none
  | p :: ps, s =>
    if hasSub (strOf "Daily Check-ins") p || hasSub (strOf "# ") p then
      some (s + p.length)
    else titleLoop ps (s + p.length)

structure InsertPos where
  index : Nat
  needsNewHeading : Bool
deriving DecidableEq, Repr

/-- `findInsertPosition(doc, todayHeading)` from the google-docs service. -/
def findInsertPosition (text todayHeading : List Char) : InsertPos :=
  let ps := splitParas text
  match findLoop todayHeading ps 1 false none with
  | (true, idx) => { index := idx.getD 0, needsNewHeading := false }
  | (false, _) =>
    let idx :=
      match titleLoop ps 1 with
      | none => 2
      | some 0 => 2
      | some n => n
    { index := idx, needsNewHeading := true }

/-- `insertText` at 1-based document index `idx`. -/
def insertAt (text : List Char) (idx : Nat) (t : List Char) : List Char :=
  text.take (idx - 1) ++ t ++ text.drop (idx - 1)

/-- `• entry\n`, the bullet line built by `appendEntry`. -/
def bulletLine (entry : List Char) : List Char :=
  '•' :: ' ' :: (entry ++ ['\n'])

structure InsertReq where
  index : Nat
  text : List Char
deriving DecidableEq, Repr

/-- The batch-update request list built by `appendEntry`. -/
def appendRequests (text h entry : List Char) : List InsertReq :=
  let pos := findInsertPosition text h
  if pos.needsNewHeading then
    [⟨pos.index, ('\n' :: '#' :: '#' :: ' ' :: (h ++ ['\n'])) ++ bulletLine entry⟩]
  else
    [⟨pos.index, bulletLine entry⟩]

def applyReq (text : List Char) (r : InsertReq) : List Char :=
  insertAt text r.index r.text

/-- `appendEntry`: compute the insert position and apply the single
batched insertion. -/
def appendEntry (text h entry : List Char) : List Char :=
  (appendRequests text h entry).foldl applyReq text

/-- Body of a freshly created document: `createCheckinDoc` makes an empty
document (one empty paragraph) and inserts `"# Daily Check-ins\n\n"` at
index 1. -/
def initialDoc : List Char := insertAt ['\n'] 1 (strOf "# Daily Check-ins\n\n")

/-- Iterated `appendEntry` with a fixed heading. -/
def appendN (h : List Char) (es : List (List Char)) (doc : List Char) : List Char :=
  es.foldl (fun d e => appendEntry d h e) doc

/-!  The entry extractor (`getEntriesForDateRange`).  Its heading regex is
`/^##?\s+(Monday|...|Sunday),\s+(\w+)\s+(\d+)\w+,\s+(\d+)/`; the matcher
below reproduces it, including the backtracking at `(\d+)\w+,`: the
engine first takes the maximal word run; `\w+` must then reach the
following comma, so the day capture is the run's leading digits, shortened
to leave at least one character for `\w+`. -/

/-- Consume at least one whitespace character (`\s+`), maximally. -/
def takeWs1 : List Char → Option (List Char)
  | [] => none
  | c :: cs => if isWs c then some ((c :: cs).dropWhile isWs) else none

/-- Consume a maximal nonempty word-character run (`\w+`). -/
def word1 (l : List Char) : Option (List Char × List Char) :=
  if (l.takeWhile isWordC).isEmpty then none
  else some (l.takeWhile isWordC, l.dropWhile isWordC)

/-- Consume a maximal nonempty digit run (`\d+`). -/
def digits1 (l : List Char) : Option (List Char × List Char) :=
  if (l.takeWhile isDigitC).isEmpty then none
  else some (l.takeWhile isDigitC, l.dropWhile isDigitC)

/-- Consume one literal character. -/
def lit (c : Char) : List Char → Option (List Char)
  | [] => none
  | x :: xs => if x = c then some xs else none

/-- Consume one of the day names (the regex alternation; the names are
pairwise prefix-free so the first-match rule is unambiguous). -/
def dayAlt (l : List Char) : Option (List Char) :=
  (dayNamesRegex.find? fun d => pre d l).map fun d => l.drop d.length

/-- JavaScript `parseInt` on a digit string. -/
def parseDigits (l : List Char) : Nat :=
  l.foldl (fun a c => a * 10 + (c.toNat - 48)) 0

/-- Consume `(\d+)\w+,` : the day-of-month digits, its ordinal suffix and
the following comma, returning the parsed day capture. -/
def dayNumPart (l : List Char) : Option (Nat × List Char) :=
  match word1 l with
  | none => none
  | some (run, rest) =>
    match rest with
    | [] => none
    | c2 :: rest2 =>
      if c2 = ',' then
        if 1 ≤ min (run.takeWhile isDigitC).length (run.length - 1) then
          some (parseDigits (run.take
            (min (run.takeWhile isDigitC).length (run.length - 1))), rest2)
        else none
      else none

structure HeadMatch where
  monthName : List Char
  dayNum : Nat
  yearNum : Nat
deriving DecidableEq, Repr

/-- Match the day-heading regex against one line (anchored at its start;
`##?` consumes one `#` and a second one when present, which is equivalent
to the regex's backtracking since `#` is not whitespace). -/
def matchDayHeading (l : List Char) : Option HeadMatch :=
  match l with
  | '#' :: r0 =>
    let r1 := match r0 with
      | '#' :: r => r
      | _ => r0
    (takeWs1 r1).bind fun r2 =>
    (dayAlt r2).bind fun r3 =>
    (lit ',' r3).bind fun r4 =>
    (takeWs1 r4).bind fun r5 =>
    (word1 r5).bind fun mr =>
    (takeWs1 mr.2).bind fun r7 =>
    (dayNumPart r7).bind fun dr =>
    (takeWs1 dr.2).bind fun r9 =>
    (digits1 r9).map fun yr => ⟨mr.1, dr.1, parseDigits yr.1⟩
  | _ => none

/-- Month-name table of the extractor (`monthNames`), as the index of the
name in January..December order. -/
def monthNamesTbl : List (List Char) :=
  [strOf "January", strOf "February", strOf "March", strOf "April",
   strOf "May", strOf "June", strOf "July", strOf "August",
   strOf "September", strOf "October", strOf "November", strOf "December"]

/-- `monthNames[name]`: `some i` when the captured month word is in the
table, `none` (JS `undefined`) otherwise. -/
def monthLookup (name : List Char) : Option Nat :=
  monthNamesTbl.findIdx? (fun m => m = name)

/-- The date built by `new Date(year, month, day)` from a heading match:
`month` is `none` when the month word was not in the table (the resulting
JS date is then invalid, and all its order comparisons are false). -/
structure PDate where
  year : Nat
  month : Option Nat
  day : Nat
deriving DecidableEq, Repr

/-- Days from the civil epoch 1970-01-01 of the first day of month
`m` (0-based) of year `y`, extended linearly in the day argument exactly
as the JS `Date` constructor normalizes out-of-range days. -/
def civilDays (y : Int) (m : Nat) (d : Int) : Int :=
  let mm : Int := m + 1
  let y2 : Int := if mm ≤ 2 then y - 1 else y
  let era : Int := Int.ediv y2 400
  let yoe : Int := y2 - era * 400
  let mp : Int := if mm > 2 then mm - 3 else mm + 9
  let doy : Int := Int.ediv (153 * mp + 2) 5 + d - 1
  let doe : Int := yoe * 365 + Int.ediv yoe 4 - Int.ediv yoe 100 + doy
  era * 146097 + doe - 719468

/-- Chronological value of a parsed date; `new Date(y, m, d)` maps a year
0..99 to 1900+y.  `none` for an invalid date. -/
def dateVal (p : PDate) : Option Int :=
  p.month.map fun m =>
    civilDays (if p.year ≤ 99 then 1900 + (p.year : Int) else (p.year : Int)) m p.day

/-- JS `a <= b` on two dates: false whenever either is invalid (NaN). -/
def dateLe (a b : PDate) : Bool :=
  match dateVal a, dateVal b with
  | some x, some y => decide (x ≤ y)
  | _, _ => false

structure EntryRec where
  date : PDate
  text : List Char
deriving DecidableEq, Repr

/-- `line.trim().startsWith('•')`. -/
def startsBullet (l : List Char) : Bool :=
  match trim l with
  | '•' :: _ => true
  | _ => false

/-- One step of the extractor's line loop: parse a heading into the
current date, otherwise emit a bullet line when a current date exists and
falls inside the requested range. -/
def extractLoop (s e : PDate) : List (List Char) → Option PDate → List EntryRec
  | [], _ => []
  | l :: ls, cur =>
    match matchDayHeading l with
    | some hm =>
      extractLoop s e ls (some ⟨hm.yearNum, monthLookup hm.monthName, hm.dayNum⟩)
    | none =>
      match cur with
      | some cd =>
        if startsBullet l then
          if dateLe s cd && dateLe cd e then
            ⟨cd, trim ((trim l).drop 1)⟩ :: extractLoop s e ls cur
          else extractLoop s e ls cur
        else extractLoop s e ls cur
      | none => extractLoop s e ls cur

/-- `getEntriesForDateRange` over the document text. -/
def getEntriesForDateRange (text : List Char) (s e : PDate) : List EntryRec :=
  extractLoop s e (splitOnC '\n' text) none

/-- The same walk with no range condition: every parsed record, in
document order (the spec's Entry Extractor sequence). -/
def extractAll : List (List Char) → Option PDate → List EntryRec
  | [], _ => []
  | l :: ls, cur =>
    match matchDayHeading l with
    | some hm =>
      extractAll ls (some ⟨hm.yearNum, monthLookup hm.monthName, hm.dayNum⟩)
    | none =>
      match cur with
      | some cd =>
        if startsBullet l then ⟨cd, trim ((trim l).drop 1)⟩ :: extractAll ls cur
        else extractAll ls cur
      | none => extractAll ls cur

/-- All records of a document, unfiltered. -/
def extractRecords (text : List Char) : List EntryRec :=
  extractAll (splitOnC '\n' text) none

/-!  The date formatter (`date-formatter.js`). -/

/-- Decimal rendering of a natural number (JS number-to-string in a
template literal). -/
def toDec (n : Nat) : List Char :=
  if h : n < 10 then [Char.ofNat (48 + n)]
  else toDec (n / 10) ++ [Char.ofNat (48 + n % 10)]
decreasing_by exact Nat.div_lt_self (by omega) (by omega)

/-- `getOrdinalSuffix(n)`: `s[(v-20)%10] || s[v] || s[0]` with JS remainder
semantics (`%` keeps the dividend's sign, and a negative or out-of-range
index reads as undefined). -/
def getOrdinalSuffix (n : Nat) : List Char :=
  if 0 ≤ Int.tmod (((n % 100 : Nat) : Int) - 20) 10 ∧
      Int.tmod (((n % 100 : Nat) : Int) - 20) 10 < 4 then
    [strOf "th", strOf "st", strOf "nd", strOf "rd"].getD
      (Int.tmod (((n % 100 : Nat) : Int) - 20) 10).toNat []
  else if n % 100 < 4 then
    [strOf "th", strOf "st", strOf "nd", strOf "rd"].getD (n % 100) []
  else strOf "th"

/-- Day-name table of the formatter (`days`, Sunday first as returned by
`Date.prototype.getDay`). -/
def daysTbl : List (List Char) :=
  [strOf "Sunday", strOf "Monday", strOf "Tuesday", strOf "Wednesday",
   strOf "Thursday", strOf "Friday", strOf "Saturday"]

/-- Month-name table of the formatter (`months`). -/
def monthsTbl : List (List Char) :=
  [strOf "January", strOf "February", strOf "March", strOf "April",
   strOf "May", strOf "June", strOf "July", strOf "August",
   strOf "September", strOf "October", strOf "November", strOf "December"]

/-- A calendar date as the formatter reads it off a JS `Date`:
`weekday = getDay()` (0 = Sunday), `month = getMonth()` (0-based),
`day = getDate()`, `year = getFullYear()`. -/
structure CalDate where
  year : Nat
  month : Nat
  day : Nat
  weekday : Nat
deriving DecidableEq, Repr

/-- `getDateHeading(date)`: "DayName, MonthName D<suffix>, YYYY". -/
def getDateHeading (dt : CalDate) : List Char :=
  daysTbl.getD dt.weekday [] ++ strOf ", " ++ monthsTbl.getD dt.month [] ++
    strOf " " ++ toDec dt.day ++ getOrdinalSuffix dt.day ++ strOf ", " ++
    toDec dt.year

/-!  The LLM service (`llm.js`): `cleanupEntry` and the fallback structure
of `refineEntry`. -/

/-- A bullet marker of the class `[-•*]`. -/
def isMarker (c : Char) : Bool := c = '-' || c = '•' || c = '*'

/-- Scanner for `replace(/\s+/g, ' ')`: collapse each whitespace run to
one space; the flag records being inside a run whose space is already
emitted. -/
def normWsGo : Bool → List Char → List Char
  | _, [] => []
  | inRun, c :: cs =>
    if isWs c then
      if inRun then normWsGo true cs else ' ' :: normWsGo true cs
    else c :: normWsGo false cs

/-- `replace(/\s+/g, ' ')`. -/
def normWs (s : List Char) : List Char := normWsGo false s

/-- Scanner for `replace(/^[-•*]\s*/gm, '')`: at a line start a marker and
the following whitespace run are removed.  The first flag is whether the
scan is inside the whitespace run following a removed marker; the second
is whether the next unconsumed character sits at a line start (while
skipping, whether the last skipped character was a newline). -/
def sbGo : Bool → Bool → List Char → List Char
  | _, _, [] => []
  | true, b, c :: cs =>
    if isWs c then sbGo true (c = '\n') cs
    else if b && isMarker c then sbGo true false cs
    else c :: sbGo false (c = '\n') cs
  | false, b, c :: cs =>
    if b && isMarker c then sbGo true false cs
    else c :: sbGo false (c = '\n') cs

/-- `replace(/^[-•*]\s*/gm, '')`. -/
def stripBullets (s : List Char) : List Char := sbGo false true s

/-- The lookahead `(?=\s*\d)`: optional whitespace then a digit. -/
def wsDigitAhead (l : List Char) : Bool :=
  match l.dropWhile isWs with
  | d :: _ => isDigitC d
  | [] => false

/-- `split(/[,;](?!\s*\d)/)`: split at a comma or semicolon not followed
by optional whitespace and a digit. -/
def splitCS : List Char → List (List Char)
  | [] => [[]]
  | c :: cs =>
    let r := splitCS cs
    if (c = ',' || c = ';') && !wsDigitAhead cs then [] :: r
    else
      match r with
      | [] => [[c]]
      | l :: ls => (c :: l) :: ls

/-- `cleanupEntry(input)`: trim, normalize whitespace, strip leading
bullet markers, split on commas/semicolons not preceding digits, trim the
pieces, drop empty ones, and join with `"\n• "`. -/
def cleanupEntry (input : List Char) : List Char :=
  List.intercalate (strOf "\n• ")
    (((splitCS (stripBullets (normWs (trim input)))).map trim).filter (· ≠ []))

/-- `response.replace(/^[-•*]\s*/, '')` (single, anchored at the string
start only). -/
def stripOneBullet (l : List Char) : List Char :=
  match l with
  | [] => []
  | c :: cs => if isMarker c then cs.dropWhile isWs else c :: cs

/-- The post-processing of a successful LLM response in `refineEntry`. -/
def refineSuccess (resp : List Char) : List Char :=
  let r := trim resp
  let lines := (splitOnC '\n' r).filter fun l => trim l ≠ []
  if 1 < lines.length then
    List.intercalate (strOf "\n• ") (lines.map fun l => trim (stripOneBullet l))
  else trim (stripOneBullet r)

/-- `refineEntry(rawInput)`, with the Gemini call abstracted as an oracle:
`apiKey` is whether `GEMINI_API_KEY` is configured and `llm` the outcome
of `model.generateContent` (an exception or the response text). -/
def refineEntry (apiKey : Bool) (llm : Except Unit (List Char))
    (rawInput : List Char) : List Char :=
  if !apiKey then cleanupEntry rawInput
  else
    match llm with
    | .ok resp => refineSuccess resp
    | .error _ => cleanupEntry rawInput

/-!  Token encryption (`encryption.js`).  AES-256-GCM itself is the Node
`crypto` built-in, an external collaborator: it is abstracted as a cipher
with an inversion property, while the repository's own layer — the
`iv:authTag:ciphertext` base64 format and its parsing — is embedded
concretely.  Bytes are naturals below 256. -/

/-- The base64 alphabet. -/
def b64Alphabet : List Char :=
  strOf "ABCDEFGHIJKLMNOPQRSTUVWXYZabcdefghijklmnopqrstuvwxyz0123456789+/"

/-- Character for a sextet value. -/
def sextetChar (v : Nat) : Char := b64Alphabet.getD v 'A'

/-- Sextet value of an alphabet character. -/
def charSextet (c : Char) : Nat :=
  (b64Alphabet.findIdx? (fun x => x = c)).getD 0

/-- Standard padded base64 of a byte sequence (`Buffer.toString('base64')`). -/
def b64Encode : List Nat → List Char
  | [] => []
  | [a] => [sextetChar (a / 4), sextetChar (a % 4 * 16), '=', '=']
  | [a, b] => [sextetChar (a / 4), sextetChar (a % 4 * 16 + b / 16),
               sextetChar (b % 16 * 4), '=']
  | a :: b :: c :: rest =>
    sextetChar (a / 4) :: sextetChar (a % 4 * 16 + b / 16) ::
      sextetChar (b % 16 * 4 + c / 64) :: sextetChar (c % 64) ::
      b64Encode rest

/-- Base64 decoding of 4-character groups with `=` padding
(`Buffer.from(s, 'base64')` on well-formed input). -/
def b64Decode : List Char → List Nat
  | c0 :: c1 :: c2 :: c3 :: rest =>
    let v0 := charSextet c0
    let v1 := charSextet c1
    if c2 = '=' then [v0 * 4 + v1 / 16]
    else
      let v2 := charSextet c2
      if c3 = '=' then [v0 * 4 + v1 / 16, v1 % 16 * 16 + v2 / 4]
      else
        (v0 * 4 + v1 / 16) :: (v1 % 16 * 16 + v2 / 4) ::
          (v2 % 4 * 64 + charSextet c3) :: b64Decode rest
  | _ => []

/-- The AES-256-GCM primitive as provided by Node `crypto`: `run` maps
key, IV and plaintext to ciphertext and auth tag; `undo` maps key, IV, tag
and ciphertext back to a plaintext when authentication succeeds. -/
structure GcmCipher where
  run : List Nat → List Nat → List Nat → List Nat × List Nat
  undo : List Nat → List Nat → List Nat → List Nat → Option (List Nat)

/-- `encrypt(plaintext)`: base64-encode IV, auth tag and ciphertext and
join them with `:`. -/
def encrypt (C : GcmCipher) (key iv pt : List Nat) : List Char :=
  let ct := (C.run key iv pt).1
  let tag := (C.run key iv pt).2
  b64Encode iv ++ ':' :: (b64Encode tag ++ ':' :: b64Encode ct)

/-- `decrypt(encryptedData)`: split on `:`, reject unless exactly three
parts, then decode and decipher. -/
def decrypt (C : GcmCipher) (key : List Nat) (s : List Char) :
    Except (List Char) (List Nat) :=
  match splitOnC ':' s with
  | [p0, p1, p2] =>
    match C.undo key (b64Decode p0) (b64Decode p1) (b64Decode p2) with
    | some pt => .ok pt
    | none => .error (strOf "Unsupported state or unable to authenticate data")
  | _ => .error (strOf "Invalid encrypted data format")

/-!  Undo.  `removeLastEntry` is called from `handleUndo` but its own code
is not part of the sources here; it is modelled from the spec. -/

/-- The paragraph is a bullet entry: its trimmed text starts with `•`. -/
def isBulletPara (p : List Char) : Bool :=
  match trim p with
  | '•' :: _ => true
  | _ => false

/-- Forward scan remembering the index of the last bullet paragraph. -/
def lastBulletIdx : Nat → Option Nat → List (List Char) → Option Nat
  | _, best, [] => best
  | i, best, p :: ps =>
    lastBulletIdx (i + 1) (if isBulletPara p then some i else best) ps

/-- Modelled from the spec: `removeLastEntry` of the google-docs service
(not under the provided sources; only its caller `handleUndo` is).  Per
spec section 4.4 it locates the last bullet-prefixed paragraph in document
order by a forward scan remembering the last match, deletes exactly that
paragraph's text range, and returns the removed record's text (the text
after the bullet marker, trimmed); with no bullet paragraph anywhere it
returns the defined empty result instead of failing. -/
def removeLastEntry (text : List Char) : Option (List Char × List Char) :=
  let ps := splitParas text
  match lastBulletIdx 0 none ps with
  | none => none
  | some i => some (trim ((trim (ps.getD i [])).drop 1), (ps.eraseIdx i).flatten)

/-!  ## Spec-side definitions

Definitions transcribing the specification's wording, used to state the
claims and compare them against the embedded code. -/

/-- Index of the first list element satisfying `q`. -/
def firstIdx (q : α → Bool) : List α → Option Nat
  | [] => none
  | a :: as => if q a then some 0 else (firstIdx q as).map (· + 1)

/-- Total length of a paragraph list. -/
def sumLen (ps : List (List Char)) : Nat := (ps.map List.length).sum

/-- `endIndex` of paragraph `i` in a paragraph list starting at document
index 1. -/
def paraEnd (ps : List (List Char)) (i : Nat) : Nat := 1 + sumLen (ps.take (i + 1))

/-- A paragraph containing the document title marker (the fallback test of
`findInsertPosition`: raw text containing "Daily Check-ins" or "# "). -/
def titleMarkerPara (p : List Char) : Bool :=
  hasSub (strOf "Daily Check-ins") p || hasSub (strOf "# ") p

/-- Spec wording for the fallback offset: the position just after the
first paragraph containing the document title marker. -/
def firstTitleEnd (text : List Char) : Option Nat :=
  (firstIdx titleMarkerPara (splitParas text)).map (paraEnd (splitParas text))

/-- The claim's section-end test: the paragraph matches the day-heading
pattern for ANY day. -/
def specBreak (p : List Char) : Bool := dayPat (trim p)

/-- The code's actual section-end test: a day-pattern paragraph that does
not itself contain the target heading (a paragraph containing the heading
is skipped with `continue` before the pattern is consulted). -/
def codeBreak (h p : List Char) : Bool := dayPat (trim p) && !hasSub h (trim p)

/-- Index (into the paragraph list) one past the last paragraph of the
day's Group, for a given section-end test `brk`: the first paragraph after
the heading paragraph `i0` satisfying `brk`, or the end of the document. -/
def groupStop (brk : List Char → Bool) (ps : List (List Char)) (i0 : Nat) : Nat :=
  match firstIdx brk (ps.drop (i0 + 1)) with
  | none => ps.length
  | some j => i0 + 1 + j

/-- The insertion offset claimed by the spec sentence for an existing
Group: the trailing offset (`endIndex - 1`) of the Group's last paragraph,
the Group ending at the next paragraph matching the day pattern for any
day. -/
def specGroupIdx (text h : List Char) : Option Nat :=
  (firstIdx (fun p => hasSub h (trim p)) (splitParas text)).map fun i0 =>
    paraEnd (splitParas text) (groupStop specBreak (splitParas text) i0 - 1) - 1

/-- Same, with the code's actual section-end test. -/
def codeGroupIdx (text h : List Char) : Option Nat :=
  (firstIdx (fun p => hasSub h (trim p)) (splitParas text)).map fun i0 =>
    paraEnd (splitParas text) (groupStop (codeBreak h) (splitParas text) i0 - 1) - 1

/-- `(es.map bulletLine).flatten`: the bullet lines of a list of entries. -/
def bulletsJoin (es : List (List Char)) : List Char := (es.map bulletLine).flatten

/-- Closed form of the document produced by appending `e1 :: rest` on one
day with heading `h` to a freshly created document. -/
def dayLogDoc (h e1 : List Char) (rest : List (List Char)) : List Char :=
  strOf "# Daily Check-ins\n\n## " ++ h ++ strOf "\n" ++ bulletLine e1 ++
    strOf "\n" ++ bulletsJoin rest ++ strOf "\n"

/-- The index tracked by the scan once the heading has been found. -/
def scanIdx (h : List Char) : List (List Char) → Nat → Nat → Nat
  | [], _, j => j
  | p :: ps, s, j =>
    if codeBreak h p then j
    else scanIdx h ps (s + p.length) (s + p.length - 1)

/-- Paragraphs of `dayLogDoc`. -/
def dayLogParas (h e1 : List Char) (rest : List (List Char)) : List (List Char) :=
  strOf "# Daily Check-ins\n" :: strOf "\n" :: (strOf "## " ++ h ++ ['\n']) ::
    bulletLine e1 :: strOf "\n" :: (rest.map bulletLine ++ [strOf "\n"])

/-!  ## Concrete documents used to evaluate the development -/

/-- A heading the date formatter produces for Tuesday, June 3rd 2025. -/
def tueHeading : List Char := strOf "Tuesday, June 3rd, 2025"

/-- A heading the date formatter produces for Monday, June 2nd 2025. -/
def monHeading : List Char := strOf "Monday, June 2nd, 2025"

/-- The document after one append (entry `x`) on Tuesday to a fresh doc. -/
def docOneGroup : List Char := appendEntry initialDoc tueHeading (strOf "x")

/-- `docOneGroup` after a first append (entry `a`) on the following Monday. -/
def docTwoGroups : List Char := appendEntry docOneGroup monHeading (strOf "a")

/-- `docTwoGroups` after a second same-day append (entry `b`) on Monday. -/
def docBug : List Char := appendEntry docTwoGroups monHeading (strOf "b")

/-- A document whose Monday group is followed by a bare (un-prefixed)
paragraph that repeats the Monday heading text. -/
def dupDoc : List Char :=
  strOf "# Daily Check-ins\n## Monday, June 2nd, 2025\n• a\nMonday, June 2nd, 2025\n• b\n"

/-- A trivial instantiation of the AES-256-GCM interface: the ciphertext is
the plaintext and the auth tag is a single zero byte. -/
def trivialGcm : GcmCipher :=
  ⟨fun _ _ pt => (pt, [0]), fun _ _ _ ct => some ct⟩

/-!  ## Generic string lemmas -/

theorem dropWhile_len_le (p : Char → Bool) (l : List Char) :
    (l.dropWhile p).length ≤ l.length := by
  induction l with
  | nil => simp [List.dropWhile]
  | cons c cs ih =>
    simp only [List.dropWhile]
    split
    · simpa using Nat.le_succ_of_le ih
    · simp

theorem pre_refl (l : List Char) : pre l l = true := by
  induction l with
  | nil => rfl
  | cons c cs ih => simp [pre, ih]

theorem pre_nil_iff (n : List Char) : pre n [] = true ↔ n = [] := by
  cases n <;> simp [pre]

theorem hasSub_nil (n : List Char) : hasSub n [] = true ↔ n = [] := by
  simp [hasSub, pre_nil_iff]

theorem hasSub_append_self (n A : List Char) : hasSub n (A ++ n) = true := by
  induction A with
  | nil =>
    cases n with
    | nil => simp [hasSub, pre]
    | cons c cs => simp [hasSub, pre_refl]
  | cons a as ih => simp [hasSub, ih]

theorem isWs_spec (c : Char) :
    isWs c = (c = ' ' || c = '\t' || c = '\n' || c = '\r' || c = '\x0b' || c = '\x0c') := rfl

theorem trimL_cons_nonws (c : Char) (l : List Char) (hc : isWs c = false) :
    trimL (c :: l) = c :: l := by
  simp [trimL, List.dropWhile, hc]

theorem dropWhile_eq_self_cons (p : Char → Bool) (a : Char) (as : List Char)
    (h : List.dropWhile p (a :: as) = a :: as) : p a = false := by
  by_contra hpa
  simp only [Bool.not_eq_false] at hpa
  rw [List.dropWhile_cons_of_pos hpa] at h
  have h1 := dropWhile_len_le p as
  have h2 := congrArg List.length h
  simp at h2
  omega

theorem dropWhile_append_single (p : Char → Bool) (A : List Char) (c : Char)
    (hc : p c = false) : (A ++ [c]).dropWhile p = A.dropWhile p ++ [c] := by
  induction A with
  | nil => simp [List.dropWhile, hc]
  | cons a as ih =>
    by_cases ha : p a = true
    · simpa [List.dropWhile_cons, ha] using ih
    · simp [List.dropWhile_cons, ha]

theorem trimR_append_of (X Y : List Char) (hY : trimR Y = Y) (hne : Y ≠ []) :
    trimR (X ++ Y) = X ++ Y := by
  have hYr' : Y.reverse ≠ [] := by simpa using hne
  obtain ⟨a, as, hYr⟩ : ∃ a as, Y.reverse = a :: as := by
    cases hYr : Y.reverse with
    | nil => exact absurd hYr hYr'
    | cons a as => exact ⟨a, as, rfl⟩
  have h1 : Y.reverse.dropWhile isWs = Y.reverse := by
    have := congrArg List.reverse hY
    simpa [trimR] using this
  have ha : isWs a = false := by
    apply dropWhile_eq_self_cons isWs a as
    rw [← hYr]
    exact h1
  have h2 : (X ++ Y).reverse = a :: (as ++ X.reverse) := by
    rw [List.reverse_append, hYr]
    simp
  unfold trimR
  rw [h2, List.dropWhile_cons_of_neg (by simp [ha]), ← h2, List.reverse_reverse]

theorem trimR_cons_nonws (c : Char) (l : List Char) (hc : isWs c = false) :
    trimR (c :: l) = c :: trimR l := by
  unfold trimR
  rw [show (c :: l).reverse = l.reverse ++ [c] from by simp,
    dropWhile_append_single isWs _ c hc]
  simp

theorem trim_cons_nonws (c : Char) (l : List Char) (hc : isWs c = false) :
    trim (c :: l) = c :: trimR l := by
  unfold trim
  rw [trimL_cons_nonws c l hc, trimR_cons_nonws c l hc]

theorem trimR_append_nl (X : List Char) : trimR (X ++ ['\n']) = trimR X := by
  unfold trimR
  rw [List.reverse_append]
  simp [List.dropWhile, isWs]

theorem trim_nl : trim ['\n'] = [] := rfl

theorem takeWhile_append_all (p : Char → Bool) (A B : List Char)
    (hA : ∀ a ∈ A, p a = true) : (A ++ B).takeWhile p = A ++ B.takeWhile p := by
  induction A with
  | nil => simp
  | cons a as ih =>
    have ha : p a = true := hA a (by simp)
    simp only [List.cons_append, List.takeWhile_cons, ha, if_true]
    rw [ih fun x hx => hA x (by simp [hx])]

theorem dropWhile_append_all (p : Char → Bool) (A B : List Char)
    (hA : ∀ a ∈ A, p a = true) : (A ++ B).dropWhile p = B.dropWhile p := by
  induction A with
  | nil => simp
  | cons a as ih =>
    have ha : p a = true := hA a (by simp)
    simp only [List.cons_append, List.dropWhile_cons, ha, if_true]
    exact ih fun x hx => hA x (by simp [hx])

theorem takeWhile_append_stop (p : Char → Bool) (A B : List Char)
    (hA : ∀ a ∈ A, p a = true) (hB : ∀ b ∈ B.head?, p b = false) :
    (A ++ B).takeWhile p = A := by
  rw [takeWhile_append_all p A B hA]
  cases B with
  | nil => simp
  | cons b bs => simp [List.takeWhile_cons, hB b rfl]

theorem dropWhile_append_stop (p : Char → Bool) (A B : List Char)
    (hA : ∀ a ∈ A, p a = true) (hB : ∀ b ∈ B.head?, p b = false) :
    (A ++ B).dropWhile p = B := by
  rw [dropWhile_append_all p A B hA]
  cases B with
  | nil => simp
  | cons b bs => simp [List.dropWhile_cons, hB b rfl]

/-!  ### splitParas lemmas -/

theorem splitParas_ne_nil (l : List Char) (h : l ≠ []) : splitParas l ≠ [] := by
  cases l with
  | nil => exact absurd rfl h
  | cons c cs =>
    by_cases hc : c = '\n'
    · simp [splitParas, hc]
    · simp only [splitParas, if_neg hc]
      cases splitParas cs <;> simp

theorem splitParas_flatten (l : List Char) : (splitParas l).flatten = l := by
  induction l with
  | nil => rfl
  | cons c cs ih =>
    by_cases hc : c = '\n'
    · simp [splitParas, hc, ih]
    · simp only [splitParas, if_neg hc]
      cases hs : splitParas cs with
      | nil =>
        have : cs = [] := by
          by_contra hne
          exact splitParas_ne_nil cs hne hs
        simp [this]
      | cons p ps =>
        rw [hs] at ih
        simpa using ih

theorem splitParas_cons (c : Char) (cs : List Char) :
    splitParas (c :: cs) =
      if c = '\n' then ['\n'] :: splitParas cs
      else
        match splitParas cs with
        | [] => [[c]]
        | p :: ps => (c :: p) :: ps := rfl

theorem splitParas_append (A B : List Char) (hA : A.getLast? = some '\n') :
    splitParas (A ++ B) = splitParas A ++ splitParas B := by
  induction A with
  | nil => simp at hA
  | cons c cs ih =>
    cases cs with
    | nil =>
      have hc : c = '\n' := by simpa using hA
      subst hc
      calc splitParas (['\n'] ++ B) = splitParas ('\n' :: B) := by simp
        _ = ['\n'] :: splitParas B := by rw [splitParas_cons]; simp
        _ = splitParas ['\n'] ++ splitParas B := by rfl
    | cons c2 cs2 =>
      have hA2 : (c2 :: cs2).getLast? = some '\n' := by
        rw [← hA]
        simp [List.getLast?_cons_cons]
      have key := ih hA2
      by_cases hc : c = '\n'
      · subst hc
        calc splitParas (('\n' :: c2 :: cs2) ++ B)
            = splitParas ('\n' :: ((c2 :: cs2) ++ B)) := rfl
          _ = ['\n'] :: splitParas ((c2 :: cs2) ++ B) := by
                rw [splitParas_cons '\n' ((c2 :: cs2) ++ B), if_pos rfl]
          _ = ['\n'] :: (splitParas (c2 :: cs2) ++ splitParas B) := by rw [key]
          _ = (['\n'] :: splitParas (c2 :: cs2)) ++ splitParas B := rfl
          _ = splitParas ('\n' :: c2 :: cs2) ++ splitParas B := by
                rw [splitParas_cons '\n' (c2 :: cs2), if_pos rfl]
      · obtain ⟨p, ps, hps⟩ : ∃ p ps, splitParas (c2 :: cs2) = p :: ps := by
          cases hs : splitParas (c2 :: cs2) with
          | nil => exact absurd hs (splitParas_ne_nil _ (by simp))
          | cons p ps => exact ⟨p, ps, rfl⟩
        calc splitParas ((c :: c2 :: cs2) ++ B)
            = splitParas (c :: ((c2 :: cs2) ++ B)) := rfl
          _ = (match splitParas ((c2 :: cs2) ++ B) with
                | [] => [[c]]
                | p :: ps => (c :: p) :: ps) := by
                rw [splitParas_cons c ((c2 :: cs2) ++ B), if_neg hc]
          _ = (c :: p) :: (ps ++ splitParas B) := by rw [key, hps]; rfl
          _ = ((c :: p) :: ps) ++ splitParas B := rfl
          _ = splitParas (c :: c2 :: cs2) ++ splitParas B := by
                rw [splitParas_cons c (c2 :: cs2), if_neg hc, hps]

theorem splitParas_single_line (l : List Char) (h : ∀ c ∈ l, c ≠ '\n') :
    splitParas (l ++ ['\n']) = [l ++ ['\n']] := by
  induction l with
  | nil => rfl
  | cons c cs ih =>
    have hc : ¬c = '\n' := h c (by simp)
    have e1 : (c :: cs) ++ ['\n'] = c :: (cs ++ ['\n']) := rfl
    rw [e1, splitParas_cons, if_neg hc, ih fun x hx => h x (by simp [hx])]

theorem sumLen_append (A B : List (List Char)) :
    sumLen (A ++ B) = sumLen A + sumLen B := by
  simp [sumLen]

theorem sumLen_flatten (ps : List (List Char)) : ps.flatten.length = sumLen ps := by
  simp [sumLen, List.length_flatten]

theorem take_sumLen (ps : List (List Char)) (m : Nat) :
    ps.flatten.take (sumLen (ps.take m)) = (ps.take m).flatten := by
  have h1 : ps.flatten = (ps.take m).flatten ++ (ps.drop m).flatten := by
    rw [← List.flatten_append, List.take_append_drop]
  rw [h1, ← sumLen_flatten (ps.take m)]
  exact List.take_left _ _

theorem drop_sumLen (ps : List (List Char)) (m : Nat) :
    ps.flatten.drop (sumLen (ps.take m)) = (ps.drop m).flatten := by
  have h1 : ps.flatten = (ps.take m).flatten ++ (ps.drop m).flatten := by
    rw [← List.flatten_append, List.take_append_drop]
  rw [h1, ← sumLen_flatten (ps.take m)]
  exact List.drop_left _ _

/-!  ### firstIdx lemmas -/

theorem firstIdx_cons (q : α → Bool) (a : α) (as : List α) :
    firstIdx q (a :: as) = if q a then some 0 else (firstIdx q as).map (· + 1) := rfl

theorem firstIdx_none_iff (q : α → Bool) :
    ∀ l : List α, firstIdx q l = none ↔ ∀ a ∈ l, q a = false := by
  intro l
  induction l with
  | nil => simp [firstIdx]
  | cons a as ih =>
    by_cases ha : q a = true
    · simp [firstIdx_cons, ha]
    · have ha' : q a = false := by simpa using ha
      simp [firstIdx_cons, ha', ih]

theorem firstIdx_some_split (q : List Char → Bool) :
    ∀ (l : List (List Char)) (k : Nat), firstIdx q l = some k →
      ∃ A b B, l = A ++ b :: B ∧ A.length = k ∧ q b = true ∧
        ∀ a ∈ A, q a = false := by
  intro l
  induction l with
  | nil => intro k hk; simp [firstIdx] at hk
  | cons a as ih =>
    intro k hk
    by_cases ha : q a = true
    · rw [firstIdx_cons, if_pos ha] at hk
      exact ⟨[], a, as, by simp, by simpa using Option.some.inj hk, ha, by simp⟩
    · have ha' : q a = false := by simpa using ha
      rw [firstIdx_cons, if_neg (by simp [ha'])] at hk
      obtain ⟨k2, hk2, hkk⟩ : ∃ k2, firstIdx q as = some k2 ∧ k = k2 + 1 := by
        cases hfi : firstIdx q as with
        | none => rw [hfi] at hk; simp at hk
        | some k2 =>
          rw [hfi] at hk
          simp at hk
          exact ⟨k2, rfl, hk.symm⟩
      obtain ⟨A, b, B, hsplit, hlen, hb, hA⟩ := ih k2 hk2
      refine ⟨a :: A, b, B, by simp [hsplit], by simp [hlen, hkk], hb, ?_⟩
      intro x hx
      rcases List.mem_cons.mp hx with hx | hx
      · subst hx; exact ha'
      · exact hA x hx

/-!  ### findLoop lemmas -/

theorem findLoop_skip (h p : List Char) (ps : List (List Char)) (s : Nat)
    (idx : Option Nat) (hp : hasSub h (trim p) = false) :
    findLoop h (p :: ps) s false idx = findLoop h ps (s + p.length) false idx := by
  simp [findLoop, hp]

theorem findLoop_hit (h p : List Char) (ps : List (List Char)) (s : Nat) (f : Bool)
    (idx : Option Nat) (hp : hasSub h (trim p) = true) :
    findLoop h (p :: ps) s f idx =
      findLoop h ps (s + p.length) true (some (s + p.length - 1)) := by
  simp [findLoop, hp]

theorem findLoop_brk (h p : List Char) (ps : List (List Char)) (s : Nat)
    (idx : Option Nat) (hp : hasSub h (trim p) = false) (hd : dayPat (trim p) = true) :
    findLoop h (p :: ps) s true idx = (true, idx) := by
  simp [findLoop, hp, hd]

theorem findLoop_cont (h p : List Char) (ps : List (List Char)) (s : Nat)
    (idx : Option Nat) (hp : hasSub h (trim p) = false) (hd : dayPat (trim p) = false) :
    findLoop h (p :: ps) s true idx =
      findLoop h ps (s + p.length) true (some (s + p.length - 1)) := by
  simp [findLoop, hp, hd]

theorem findLoop_nofind (h : List Char) :
    ∀ (ps : List (List Char)) (s : Nat) (idx : Option Nat),
      (∀ p ∈ ps, hasSub h (trim p) = false) →
      findLoop h ps s false idx = (false, idx) := by
  intro ps
  induction ps with
  | nil => intro s idx _; rfl
  | cons p ps ih =>
    intro s idx H
    rw [findLoop_skip h p ps s idx (H p (by simp))]
    exact ih _ _ fun x hx => H x (by simp [hx])

theorem findLoop_pre (h : List Char) :
    ∀ (A ps : List (List Char)) (s : Nat) (idx : Option Nat),
      (∀ p ∈ A, hasSub h (trim p) = false) →
      findLoop h (A ++ ps) s false idx = findLoop h ps (s + sumLen A) false idx := by
  intro A
  induction A with
  | nil => intro ps s idx _; simp [sumLen]
  | cons p A ih =>
    intro ps s idx H
    rw [List.cons_append, findLoop_skip h p (A ++ ps) s idx (H p (by simp))]
    rw [ih ps _ idx fun x hx => H x (by simp [hx])]
    have : s + p.length + sumLen A = s + sumLen (p :: A) := by
      simp [sumLen]; omega
    rw [this]

theorem findLoop_found (h : List Char) :
    ∀ (ps : List (List Char)) (s j : Nat),
      findLoop h ps s true (some j) = (true, some (scanIdx h ps s j)) := by
  intro ps
  induction ps with
  | nil => intro s j; rfl
  | cons p ps ih =>
    intro s j
    by_cases hp : hasSub h (trim p) = true
    · rw [findLoop_hit h p ps s true (some j) hp, ih]
      have hcb : codeBreak h p = false := by simp [codeBreak, hp]
      rw [scanIdx, if_neg (by simp [hcb])]
    · have hp' : hasSub h (trim p) = false := by simpa using hp
      by_cases hd : dayPat (trim p) = true
      · rw [findLoop_brk h p ps s (some j) hp' hd]
        have hcb : codeBreak h p = true := by simp [codeBreak, hp', hd]
        rw [scanIdx, if_pos hcb]
      · have hd' : dayPat (trim p) = false := by simpa using hd
        rw [findLoop_cont h p ps s (some j) hp' hd', ih]
        have hcb : codeBreak h p = false := by simp [codeBreak, hp', hd']
        rw [scanIdx, if_neg (by simp [hcb])]

theorem scanIdx_no_brk (h : List Char) :
    ∀ (ps : List (List Char)) (s j : Nat),
      (∀ p ∈ ps, codeBreak h p = false) → ps ≠ [] →
      scanIdx h ps s j = s + sumLen ps - 1 := by
  intro ps
  induction ps with
  | nil => intro s j _ hne; exact absurd rfl hne
  | cons p ps ih =>
    intro s j H _
    rw [scanIdx, if_neg (by simp [H p (by simp)])]
    cases hps : ps with
    | nil => simp [scanIdx, sumLen]
    | cons p2 ps2 =>
      rw [← hps, ih _ _ (fun x hx => H x (by simp [hx])) (by simp [hps])]
      simp only [sumLen, List.map_cons, List.sum_cons]
      omega

theorem scanIdx_brk_at (h : List Char) :
    ∀ (ps : List (List Char)) (s j k : Nat), firstIdx (codeBreak h) ps = some k →
      scanIdx h ps s j = if k = 0 then j else s + sumLen (ps.take k) - 1 := by
  intro ps
  induction ps with
  | nil => intro s j k hk; simp [firstIdx] at hk
  | cons p ps ih =>
    intro s j k hk
    by_cases hb : codeBreak h p = true
    · rw [firstIdx_cons, if_pos hb] at hk
      have hk0 : k = 0 := by simpa using (Option.some.inj hk).symm
      rw [scanIdx, if_pos hb, hk0, if_pos rfl]
    · have hb' : codeBreak h p = false := by simpa using hb
      rw [firstIdx_cons, if_neg (by simp [hb'])] at hk
      obtain ⟨k2, hk2, hkk⟩ : ∃ k2, firstIdx (codeBreak h) ps = some k2 ∧ k = k2 + 1 := by
        cases hfi : firstIdx (codeBreak h) ps with
        | none => rw [hfi] at hk; simp at hk
        | some k2 =>
          rw [hfi] at hk
          simp at hk
          exact ⟨k2, rfl, hk.symm⟩
      rw [scanIdx, if_neg (by simp [hb']), ih _ _ k2 hk2, hkk]
      by_cases hk20 : k2 = 0
      · subst hk20
        simp [sumLen]
      · rw [if_neg hk20, if_neg (by omega)]
        have h1 : (p :: ps).take (k2 + 1) = p :: ps.take k2 := by simp
        rw [h1]
        simp only [sumLen, List.map_cons, List.sum_cons]
        omega

theorem titleLoop_eq :
    ∀ (ps : List (List Char)) (s : Nat),
      titleLoop ps s =
        (firstIdx titleMarkerPara ps).map fun k => s + sumLen (ps.take (k + 1)) := by
  intro ps
  induction ps with
  | nil => intro s; rfl
  | cons p ps ih =>
    intro s
    by_cases hm : titleMarkerPara p = true
    · have : (hasSub (strOf "Daily Check-ins") p || hasSub (strOf "# ") p) = true := hm
      rw [titleLoop, if_pos this, firstIdx_cons, if_pos hm]
      simp [sumLen]
    · have hm' : (hasSub (strOf "Daily Check-ins") p || hasSub (strOf "# ") p) = false := by
        simpa [titleMarkerPara] using hm
      rw [titleLoop, if_neg (by simp [hm']), firstIdx_cons, if_neg (by simp [titleMarkerPara, hm'])]
      rw [ih]
      cases firstIdx titleMarkerPara ps with
      | none => rfl
      | some k =>
        simp only [Option.map_some', Option.map_map]
        simp [sumLen, Function.comp]
        omega

/-- `findInsertPosition` when no paragraph's trimmed text contains the
heading: a new heading is needed, at the spec's fallback offset. -/
theorem findInsertPosition_nofind (text h : List Char)
    (H : ∀ p ∈ splitParas text, hasSub h (trim p) = false) :
    findInsertPosition text h = ⟨(firstTitleEnd text).getD 2, true⟩ := by
  unfold findInsertPosition
  dsimp only
  rw [findLoop_nofind h (splitParas text) 1 none H, titleLoop_eq]
  unfold firstTitleEnd paraEnd
  cases hfi : firstIdx titleMarkerPara (splitParas text) with
  | none => simp
  | some k =>
    simp only [Option.map_some', Option.getD_some]
    rw [Nat.add_comm 1 (sumLen _)]
    rfl

/-- `findInsertPosition` when some paragraph's trimmed text contains the
heading: no new heading, and the offset is `endIndex - 1` of the last
paragraph before the code's section break. -/
theorem findInsertPosition_found (text h : List Char) (i0 : Nat)
    (Hfi : firstIdx (fun p => hasSub h (trim p)) (splitParas text) = some i0) :
    findInsertPosition text h =
      ⟨paraEnd (splitParas text) (groupStop (codeBreak h) (splitParas text) i0 - 1) - 1,
        false⟩ := by
  obtain ⟨A, b, B, hsplit, hlen, hb, hA⟩ := firstIdx_some_split _ _ _ Hfi
  have hdrop : (splitParas text).drop (i0 + 1) = B := by
    rw [hsplit, ← hlen]
    rw [show A.length + 1 = (A ++ [b]).length from by simp]
    rw [show A ++ b :: B = (A ++ [b]) ++ B from by simp]
    exact List.drop_left _ _
  have htake : (splitParas text).take (i0 + 1) = A ++ [b] := by
    rw [hsplit, ← hlen]
    rw [show A.length + 1 = (A ++ [b]).length from by simp]
    rw [show A ++ b :: B = (A ++ [b]) ++ B from by simp]
    exact List.take_left _ _
  have hlenps : (splitParas text).length = A.length + 1 + B.length := by
    rw [hsplit]; simp; omega
  unfold findInsertPosition
  dsimp only
  rw [hsplit, findLoop_pre h A (b :: B) 1 none hA, findLoop_hit h b B _ false none hb,
    findLoop_found h B _ _]
  simp only [Option.getD_some]
  have hgoal : scanIdx h B (1 + sumLen A + b.length) (1 + sumLen A + b.length - 1) =
      paraEnd (splitParas text) (groupStop (codeBreak h) (splitParas text) i0 - 1) - 1 := by
    have hsum : sumLen ((splitParas text).take (i0 + 1)) = sumLen A + b.length := by
      rw [htake, sumLen_append]
      simp [sumLen]
    unfold groupStop
    rw [hdrop]
    cases hfb : firstIdx (codeBreak h) B with
    | none =>
      have hBall : ∀ p ∈ B, codeBreak h p = false := (firstIdx_none_iff _ _).mp hfb
      cases hB : B with
      | nil =>
        have hstop : (splitParas text).length - 1 = i0 := by
          rw [hlenps, hB]; simp; omega
        rw [hstop]
        unfold paraEnd
        rw [hsum]
        simp only [scanIdx]
        omega
      | cons b2 B2 =>
        rw [← hB, scanIdx_no_brk h B _ _ hBall (by simp [hB])]
        unfold paraEnd
        have hstop : (splitParas text).length - 1 + 1 = (splitParas text).length := by
          rw [hlenps]; omega
        rw [hstop, List.take_length]
        have : sumLen (splitParas text) = sumLen A + b.length + sumLen B := by
          rw [hsplit, show A ++ b :: B = (A ++ [b]) ++ B from by simp, sumLen_append,
            sumLen_append]
          simp [sumLen]
        rw [this]
        omega
    | some j =>
      rw [scanIdx_brk_at h B _ _ j hfb]
      by_cases hj : j = 0
      · subst hj
        rw [if_pos rfl]
        have hstop : i0 + 1 + 0 - 1 = i0 := by omega
        rw [hstop]
        unfold paraEnd
        rw [hsum]
        omega
      · rw [if_neg hj]
        have hstop : i0 + 1 + j - 1 = i0 + j := by omega
        rw [hstop]
        unfold paraEnd
        have htj : (splitParas text).take (i0 + j + 1) = (A ++ [b]) ++ B.take j := by
          rw [show i0 + j + 1 = (i0 + 1) + j from by omega, List.take_add, htake, hdrop]
        rw [htj, sumLen_append, sumLen_append]
        simp only [sumLen, List.map_cons, List.map_nil, List.sum_cons, List.sum_nil]
        omega
  rw [hgoal, hsplit]

theorem hasSub_nil_false (h : List Char) (hne : h ≠ []) : hasSub h [] = false := by
  cases hfs : hasSub h [] with
  | false => rfl
  | true => exact absurd ((hasSub_nil h).mp hfs) hne

theorem dayPat_nil : dayPat [] = false := rfl

theorem dayPat_bullet (x : List Char) : dayPat ('•' :: x) = false := rfl

theorem dayPat_hash (x : List Char) : dayPat ('#' :: x) = false := rfl

theorem trim_headingPara (h : List Char) (Hh4 : trimR h = h) (Hh1 : h ≠ []) :
    trim (strOf "## " ++ h ++ ['\n']) = strOf "## " ++ h := by
  have e1 : strOf "## " ++ h ++ ['\n'] = '#' :: (('#' :: ' ' :: h) ++ ['\n']) := rfl
  have e2 : ('#' : Char) :: ' ' :: h = ['#', ' '] ++ h := rfl
  rw [e1, trim_cons_nonws _ _ (by decide), trimR_append_nl, e2,
    trimR_append_of _ h Hh4 Hh1]
  rfl

/-- `appendEntry` when no paragraph contains the heading and a title
paragraph exists: the new section lands immediately after the title
paragraph, with everything before and after preserved. -/
theorem appendEntry_nofind (text h e : List Char)
    (H : ∀ p ∈ splitParas text, hasSub h (trim p) = false)
    (k : Nat) (Hk : firstIdx titleMarkerPara (splitParas text) = some k) :
    appendEntry text h e =
      ((splitParas text).take (k + 1)).flatten ++
        ('\n' :: '#' :: '#' :: ' ' :: (h ++ ['\n'])) ++ bulletLine e ++
        ((splitParas text).drop (k + 1)).flatten := by
  have hfte : firstTitleEnd text = some (paraEnd (splitParas text) k) := by
    unfold firstTitleEnd
    rw [Hk, Option.map_some']
  have hreq : appendRequests text h e =
      [⟨paraEnd (splitParas text) k,
        ('\n' :: '#' :: '#' :: ' ' :: (h ++ ['\n'])) ++ bulletLine e⟩] := by
    unfold appendRequests
    rw [findInsertPosition_nofind text h H]
    simp [hfte]
  unfold appendEntry
  rw [hreq]
  simp only [List.foldl_cons, List.foldl_nil]
  unfold applyReq insertAt paraEnd
  simp only
  have h1 : 1 + sumLen ((splitParas text).take (k + 1)) - 1 =
      sumLen ((splitParas text).take (k + 1)) := by omega
  rw [h1]
  set ps := splitParas text with hps
  have htext : text = ps.flatten := (splitParas_flatten text).symm
  conv_lhs => rw [htext]
  rw [take_sumLen ps (k + 1), drop_sumLen ps (k + 1)]
  simp [List.append_assoc]

/-!  ### The single-day document family -/

theorem getLast?_bulletLine (e : List Char) : (bulletLine e).getLast? = some '\n' := by
  rw [show bulletLine e = ('•' :: ' ' :: e) ++ ['\n'] from by simp [bulletLine]]
  exact List.getLast?_concat _

theorem splitParas_bulletLine (e : List Char) (He : ∀ c ∈ e, c ≠ '\n') :
    splitParas (bulletLine e) = [bulletLine e] := by
  have h1 : bulletLine e = ('•' :: ' ' :: e) ++ ['\n'] := by simp [bulletLine]
  rw [h1, splitParas_single_line]
  intro c hc
  rcases List.mem_cons.mp hc with hc | hc
  · subst hc; decide
  rcases List.mem_cons.mp hc with hc | hc
  · subst hc; decide
  · exact He c hc

theorem splitParas_headingPara (h : List Char) (Hh2 : ∀ c ∈ h, c ≠ '\n') :
    splitParas (strOf "## " ++ h ++ ['\n']) = [strOf "## " ++ h ++ ['\n']] := by
  have h1 : strOf "## " ++ h ++ ['\n'] = ('#' :: '#' :: ' ' :: h) ++ ['\n'] := rfl
  rw [h1, splitParas_single_line]
  intro c hc
  rcases List.mem_cons.mp hc with hc | hc
  · subst hc; decide
  rcases List.mem_cons.mp hc with hc | hc
  · subst hc; decide
  rcases List.mem_cons.mp hc with hc | hc
  · subst hc; decide
  · exact Hh2 c hc

theorem splitParas_bulletsJoin (rest : List (List Char)) (X : List Char)
    (H : ∀ e ∈ rest, ∀ c ∈ e, c ≠ '\n') :
    splitParas (bulletsJoin rest ++ X) = rest.map bulletLine ++ splitParas X := by
  induction rest with
  | nil => simp [bulletsJoin]
  | cons e es ih =>
    have h1 : bulletsJoin (e :: es) ++ X = bulletLine e ++ (bulletsJoin es ++ X) := by
      simp [bulletsJoin]
    rw [h1, splitParas_append (bulletLine e) _ (getLast?_bulletLine e),
      splitParas_bulletLine e (H e (by simp)), ih fun x hx => H x (by simp [hx])]
    simp

theorem splitParas_dayLog (h e1 : List Char) (rest : List (List Char))
    (Hh2 : ∀ c ∈ h, c ≠ '\n') (He1 : ∀ c ∈ e1, c ≠ '\n')
    (Hrest : ∀ e ∈ rest, ∀ c ∈ e, c ≠ '\n') :
    splitParas (dayLogDoc h e1 rest) = dayLogParas h e1 rest := by
  have e0 : dayLogDoc h e1 rest =
      strOf "# Daily Check-ins\n" ++ (strOf "\n" ++ ((strOf "## " ++ h ++ ['\n']) ++
        (bulletLine e1 ++ (strOf "\n" ++ (bulletsJoin rest ++ strOf "\n"))))) := by
    unfold dayLogDoc
    simp only [List.append_assoc]
    rfl
  rw [e0]
  rw [splitParas_append (strOf "# Daily Check-ins\n") _ (by decide)]
  rw [splitParas_append (strOf "\n") _ (by decide)]
  rw [splitParas_append (strOf "## " ++ h ++ ['\n']) _ (by simp [List.getLast?_append])]
  rw [splitParas_append (bulletLine e1) _ (getLast?_bulletLine e1)]
  rw [splitParas_append (strOf "\n") _ (by decide)]
  rw [splitParas_bulletsJoin rest (strOf "\n") Hrest]
  rw [splitParas_headingPara h Hh2, splitParas_bulletLine e1 He1]
  rfl

theorem codeBreak_bulletLine (h e : List Char) : codeBreak h (bulletLine e) = false := by
  unfold codeBreak
  rw [show bulletLine e = '•' :: (' ' :: (e ++ ['\n'])) from rfl,
    trim_cons_nonws '•' _ (by decide), dayPat_bullet]
  rfl

theorem codeBreak_nl (h : List Char) : codeBreak h (strOf "\n") = false := rfl

/-- On a single-day document the scan finds the heading paragraph and,
since no later paragraph matches the section-break pattern, tracks the
last paragraph of the whole document. -/
theorem findInsertPosition_dayLog (h e1 : List Char) (rest : List (List Char))
    (Hh1 : h ≠ []) (Hh2 : ∀ c ∈ h, c ≠ '\n') (Hh4 : trimR h = h)
    (Hh5 : hasSub h (strOf "# Daily Check-ins") = false)
    (He1 : ∀ c ∈ e1, c ≠ '\n') (Hrest : ∀ e ∈ rest, ∀ c ∈ e, c ≠ '\n') :
    findInsertPosition (dayLogDoc h e1 rest) h =
      ⟨(dayLogDoc h e1 rest).length, false⟩ := by
  have hsum : sumLen (dayLogParas h e1 rest) = (dayLogDoc h e1 rest).length := by
    rw [← splitParas_dayLog h e1 rest Hh2 He1 Hrest, ← sumLen_flatten,
      splitParas_flatten]
  have hskip1 : hasSub h (trim (strOf "# Daily Check-ins\n")) = false := by
    rw [show trim (strOf "# Daily Check-ins\n") = strOf "# Daily Check-ins" from rfl]
    exact Hh5
  have hskip2 : hasSub h (trim (strOf "\n")) = false := by
    rw [show trim (strOf "\n") = [] from rfl]
    exact hasSub_nil_false h Hh1
  have hhit : hasSub h (trim (strOf "## " ++ h ++ ['\n'])) = true := by
    rw [trim_headingPara h Hh4 Hh1]
    exact hasSub_append_self h (strOf "## ")
  unfold findInsertPosition
  dsimp only
  rw [splitParas_dayLog h e1 rest Hh2 He1 Hrest]
  unfold dayLogParas
  rw [findLoop_skip h _ _ _ _ hskip1, findLoop_skip h _ _ _ _ hskip2,
    findLoop_hit h _ _ _ _ _ hhit, findLoop_found h _ _ _]
  have hall : ∀ p ∈ bulletLine e1 :: strOf "\n" :: (rest.map bulletLine ++ [strOf "\n"]),
      codeBreak h p = false := by
    intro p hp
    rcases List.mem_cons.mp hp with hp | hp
    · subst hp; exact codeBreak_bulletLine h e1
    rcases List.mem_cons.mp hp with hp | hp
    · subst hp; exact codeBreak_nl h
    rcases List.mem_append.mp hp with hp | hp
    · obtain ⟨e, _, he⟩ := List.mem_map.mp hp
      subst he
      exact codeBreak_bulletLine h e
    · rw [List.mem_singleton.mp hp]
      exact codeBreak_nl h
  rw [scanIdx_no_brk h _ _ _ hall (by simp)]
  have harith : 1 + (strOf "# Daily Check-ins\n").length + (strOf "\n").length +
      (strOf "## " ++ h ++ ['\n']).length +
      sumLen (bulletLine e1 :: strOf "\n" :: (rest.map bulletLine ++ [strOf "\n"])) - 1 =
      (dayLogDoc h e1 rest).length := by
    rw [← hsum]
    unfold dayLogParas
    simp only [sumLen, List.map_cons, List.sum_cons]
    omega
  rw [harith]
  rfl

/-- Appending another entry for the same day to a single-day document
inserts the bullet line just before the document's final newline. -/
theorem appendEntry_dayLog (h e1 e' : List Char) (rest : List (List Char))
    (Hh1 : h ≠ []) (Hh2 : ∀ c ∈ h, c ≠ '\n') (Hh4 : trimR h = h)
    (Hh5 : hasSub h (strOf "# Daily Check-ins") = false)
    (He1 : ∀ c ∈ e1, c ≠ '\n') (Hrest : ∀ e ∈ rest, ∀ c ∈ e, c ≠ '\n') :
    appendEntry (dayLogDoc h e1 rest) h e' = dayLogDoc h e1 (rest ++ [e']) := by
  have hpos := findInsertPosition_dayLog h e1 rest Hh1 Hh2 Hh4 Hh5 He1 Hrest
  have hreq : appendRequests (dayLogDoc h e1 rest) h e' =
      [⟨(dayLogDoc h e1 rest).length, bulletLine e'⟩] := by
    unfold appendRequests
    rw [hpos]
    rfl
  unfold appendEntry
  rw [hreq]
  simp only [List.foldl_cons, List.foldl_nil]
  unfold applyReq insertAt
  have hD : dayLogDoc h e1 rest =
      (strOf "# Daily Check-ins\n\n## " ++ h ++ strOf "\n" ++ bulletLine e1 ++
        strOf "\n" ++ bulletsJoin rest) ++ ['\n'] := by
    unfold dayLogDoc
    simp only [List.append_assoc]
    rfl
  rw [hD]
  simp only [InsertReq.mk.injEq]
  have hlen : ((strOf "# Daily Check-ins\n\n## " ++ h ++ strOf "\n" ++ bulletLine e1 ++
      strOf "\n" ++ bulletsJoin rest) ++ ['\n']).length - 1 =
      (strOf "# Daily Check-ins\n\n## " ++ h ++ strOf "\n" ++ bulletLine e1 ++
      strOf "\n" ++ bulletsJoin rest).length := by
    simp
    omega
  rw [hlen, List.take_left, List.drop_left]
  unfold dayLogDoc bulletsJoin
  simp [List.append_assoc]
  rfl

/-- Closed form of `N` same-day appends to a fresh document. -/
theorem appendN_dayLog (h e1 : List Char)
    (Hh1 : h ≠ []) (Hh2 : ∀ c ∈ h, c ≠ '\n') (Hh4 : trimR h = h)
    (Hh5 : hasSub h (strOf "# Daily Check-ins") = false)
    (He1 : ∀ c ∈ e1, c ≠ '\n') :
    ∀ rest : List (List Char), (∀ e ∈ rest, ∀ c ∈ e, c ≠ '\n') →
      appendN h (e1 :: rest) initialDoc = dayLogDoc h e1 rest := by
  intro rest
  induction rest using List.reverseRecOn with
  | nil =>
    intro _
    have hbase : appendN h [e1] initialDoc = appendEntry initialDoc h e1 := rfl
    rw [hbase]
    have H : ∀ p ∈ splitParas initialDoc, hasSub h (trim p) = false := by
      intro p hp
      have hps : splitParas initialDoc =
          [strOf "# Daily Check-ins\n", strOf "\n", strOf "\n"] := rfl
      rw [hps] at hp
      rcases List.mem_cons.mp hp with hp | hp
      · subst hp
        rw [show trim (strOf "# Daily Check-ins\n") = strOf "# Daily Check-ins" from rfl]
        exact Hh5
      rcases List.mem_cons.mp hp with hp | hp
      · subst hp
        rw [show trim (strOf "\n") = [] from rfl]
        exact hasSub_nil_false h Hh1
      rw [List.mem_singleton.mp hp]
      rw [show trim (strOf "\n") = [] from rfl]
      exact hasSub_nil_false h Hh1
    have Hk : firstIdx titleMarkerPara (splitParas initialDoc) = some 0 := by decide
    rw [appendEntry_nofind initialDoc h e1 H 0 Hk]
    unfold dayLogDoc bulletsJoin
    simp only [List.append_assoc, List.cons_append, List.nil_append, List.map_nil,
      List.flatten_nil]
    rfl
  | append_singleton es e' ih =>
    intro Hrest
    have h1 : e1 :: (es ++ [e']) = (e1 :: es) ++ [e'] := by simp
    have h2 : appendN h ((e1 :: es) ++ [e']) initialDoc =
        appendEntry (appendN h (e1 :: es) initialDoc) h e' := by
      unfold appendN
      rw [List.foldl_concat]
    rw [h1, h2, ih fun e he => Hrest e (by simp [he])]
    exact appendEntry_dayLog h e1 e' es Hh1 Hh2 Hh4 Hh5 He1
      fun e he => Hrest e (by simp [he])

/-!  ### Undo on the single-day document -/

theorem isBulletPara_bulletLine (e : List Char) : isBulletPara (bulletLine e) = true := by
  unfold isBulletPara
  rw [show bulletLine e = '•' :: (' ' :: (e ++ ['\n'])) from rfl,
    trim_cons_nonws '•' _ (by decide)]
  rfl

theorem isBulletPara_headingPara (h : List Char) (Hh4 : trimR h = h) (Hh1 : h ≠ []) :
    isBulletPara (strOf "## " ++ h ++ ['\n']) = false := by
  unfold isBulletPara
  rw [trim_headingPara h Hh4 Hh1]
  rfl

theorem lastBulletIdx_append :
    ∀ (A B : List (List Char)) (i : Nat) (best : Option Nat),
      lastBulletIdx i best (A ++ B) = lastBulletIdx (i + A.length) (lastBulletIdx i best A) B := by
  intro A
  induction A with
  | nil => intro B i best; simp [lastBulletIdx]
  | cons p A ih =>
    intro B i best
    simp only [List.cons_append, lastBulletIdx, List.append_eq]
    rw [ih]
    rw [show i + 1 + A.length = i + (p :: A).length from by simp; omega]

theorem lastBulletIdx_bullets :
    ∀ (es : List (List Char)) (i : Nat) (best : Option Nat),
      lastBulletIdx i best (es.map bulletLine) =
        if es = [] then best else some (i + es.length - 1) := by
  intro es
  induction es with
  | nil => intro i best; simp [lastBulletIdx]
  | cons e es ih =>
    intro i best
    simp only [List.map_cons, lastBulletIdx, isBulletPara_bulletLine e, if_true]
    rw [ih]
    cases es with
    | nil => simp
    | cons e2 es2 =>
      rw [if_neg (by simp), if_neg (by simp)]
      simp only [List.length_cons]
      congr 1
      omega

theorem getD_at_append (A : List (List Char)) (b : List Char) (B : List (List Char))
    (d : List Char) : (A ++ b :: B).getD A.length d = b := by
  induction A with
  | nil => rfl
  | cons a A ih => simpa using ih

theorem eraseIdx_at_append (A : List (List Char)) (b : List Char) (B : List (List Char)) :
    (A ++ b :: B).eraseIdx A.length = A ++ B := by
  induction A with
  | nil => rfl
  | cons a A ih => simpa using ih

theorem removedText_bulletLine (e : List Char) (HL : trimL e = e) (HR : trimR e = e)
    (Hne : e ≠ []) : trim ((trim (bulletLine e)).drop 1) = e := by
  have h1 : trim (bulletLine e) = '•' :: (' ' :: e) := by
    rw [show bulletLine e = '•' :: (' ' :: (e ++ ['\n'])) from rfl,
      trim_cons_nonws '•' _ (by decide)]
    congr 1
    rw [show (' ' :: (e ++ ['\n'])) = ((' ' :: e) ++ ['\n']) from by simp, trimR_append_nl]
    rw [show (' ' :: e) = ([' '] ++ e) from rfl, trimR_append_of [' '] e HR Hne]
  rw [h1, show ('•' :: (' ' :: e)).drop 1 = ' ' :: e from rfl]
  unfold trim
  rw [show trimL (' ' :: e) = trimL e from rfl, HL, HR]

/-- Undo on the single-day document: the last bullet paragraph is removed
and its entry text returned. -/
theorem removeLastEntry_dayLog (h e1 : List Char) (rest : List (List Char))
    (Hh1 : h ≠ []) (Hh2 : ∀ c ∈ h, c ≠ '\n') (Hh4 : trimR h = h)
    (He1 : (∀ c ∈ e1, c ≠ '\n') ∧ trimL e1 = e1 ∧ trimR e1 = e1 ∧ e1 ≠ [])
    (Hrest : ∀ e ∈ rest, (∀ c ∈ e, c ≠ '\n') ∧ trimL e = e ∧ trimR e = e ∧ e ≠ []) :
    removeLastEntry (dayLogDoc h e1 rest) =
      some ((e1 :: rest).getLast (by simp),
        if rest = [] then strOf "# Daily Check-ins\n\n## " ++ h ++ strOf "\n\n\n"
        else dayLogDoc h e1 rest.dropLast) := by
  have hT1 : isBulletPara (strOf "# Daily Check-ins\n") = false := rfl
  have hN : isBulletPara (strOf "\n") = false := rfl
  unfold removeLastEntry
  dsimp only
  rw [splitParas_dayLog h e1 rest Hh2 He1.1 fun e he => (Hrest e he).1]
  cases hre : rest with
  | nil =>
    subst hre
    have hps : dayLogParas h e1 [] =
        [strOf "# Daily Check-ins\n", strOf "\n", strOf "## " ++ h ++ ['\n'],
          bulletLine e1, strOf "\n", strOf "\n"] := by
      unfold dayLogParas
      simp
    rw [hps]
    have hlb : lastBulletIdx 0 none
        [strOf "# Daily Check-ins\n", strOf "\n", strOf "## " ++ h ++ ['\n'],
          bulletLine e1, strOf "\n", strOf "\n"] = some 3 := by
      simp [lastBulletIdx, hT1, hN, isBulletPara_headingPara h Hh4 Hh1,
        isBulletPara_bulletLine e1]
    rw [hlb]
    dsimp only
    have hget : ([strOf "# Daily Check-ins\n", strOf "\n", strOf "## " ++ h ++ ['\n'],
        bulletLine e1, strOf "\n", strOf "\n"].getD 3 []) = bulletLine e1 := rfl
    have hera : ([strOf "# Daily Check-ins\n", strOf "\n", strOf "## " ++ h ++ ['\n'],
        bulletLine e1, strOf "\n", strOf "\n"].eraseIdx 3) =
        [strOf "# Daily Check-ins\n", strOf "\n", strOf "## " ++ h ++ ['\n'],
          strOf "\n", strOf "\n"] := rfl
    rw [hget, hera, removedText_bulletLine e1 He1.2.1 He1.2.2.1 He1.2.2.2, if_pos rfl]
    simp only [List.flatten_cons, List.flatten_nil, List.append_nil, List.append_assoc,
      List.getLast_singleton]
    rfl
  | cons r0 rs =>
    rw [← hre]
    have hrne : rest ≠ [] := by simp [hre]
    have hlast : rest.dropLast ++ [rest.getLast hrne] = rest :=
      List.dropLast_append_getLast hrne
    have hlprops := Hrest (rest.getLast hrne) (List.getLast_mem hrne)
    have hps : dayLogParas h e1 rest =
        ([strOf "# Daily Check-ins\n", strOf "\n", strOf "## " ++ h ++ ['\n'],
          bulletLine e1, strOf "\n"] ++ rest.dropLast.map bulletLine) ++
          bulletLine (rest.getLast hrne) :: [strOf "\n"] := by
      unfold dayLogParas
      conv_lhs => rw [← hlast]
      simp [List.map_append]
    rw [hps]
    have hB2 : ∀ (i : Nat) (best : Option Nat),
        lastBulletIdx i best [bulletLine (rest.getLast hrne), strOf "\n"] = some i := by
      intro i best
      simp [lastBulletIdx, isBulletPara_bulletLine, hN]
    rw [show bulletLine (rest.getLast hrne) :: [strOf "\n"] =
      [bulletLine (rest.getLast hrne), strOf "\n"] from rfl]
    rw [lastBulletIdx_append _ _ 0 none, hB2]
    simp only [Nat.zero_add]
    rw [show ([strOf "# Daily Check-ins\n", strOf "\n", strOf "## " ++ h ++ ['\n'],
      bulletLine e1, strOf "\n"] ++ rest.dropLast.map bulletLine) ++
      [bulletLine (rest.getLast hrne), strOf "\n"] =
      ([strOf "# Daily Check-ins\n", strOf "\n", strOf "## " ++ h ++ ['\n'],
      bulletLine e1, strOf "\n"] ++ rest.dropLast.map bulletLine) ++
      bulletLine (rest.getLast hrne) :: [strOf "\n"] from rfl]
    rw [getD_at_append, eraseIdx_at_append]
    rw [removedText_bulletLine _ hlprops.2.1 hlprops.2.2.1 hlprops.2.2.2]
    rw [if_neg hrne, List.getLast_cons hrne]
    have hflat : (([strOf "# Daily Check-ins\n", strOf "\n", strOf "## " ++ h ++ ['\n'],
        bulletLine e1, strOf "\n"] ++ rest.dropLast.map bulletLine) ++
        [strOf "\n"]).flatten = dayLogDoc h e1 rest.dropLast := by
      unfold dayLogDoc bulletsJoin
      simp only [List.flatten_append, List.flatten_cons, List.flatten_nil,
        List.append_nil, List.append_assoc]
      rfl
    rw [hflat]

/-!  ### The extractor is a pure range filter -/

theorem extractLoop_cons (s e : PDate) (l : List Char) (ls : List (List Char))
    (cur : Option PDate) :
    extractLoop s e (l :: ls) cur =
      (match matchDayHeading l with
      | some hm =>
        extractLoop s e ls (some ⟨hm.yearNum, monthLookup hm.monthName, hm.dayNum⟩)
      | none =>
        match cur with
        | some cd =>
          if startsBullet l then
            if dateLe s cd && dateLe cd e then
              ⟨cd, trim ((trim l).drop 1)⟩ :: extractLoop s e ls cur
            else extractLoop s e ls cur
          else extractLoop s e ls cur
        | none => extractLoop s e ls cur) := rfl

theorem extractAll_cons (l : List Char) (ls : List (List Char)) (cur : Option PDate) :
    extractAll (l :: ls) cur =
      (match matchDayHeading l with
      | some hm =>
        extractAll ls (some ⟨hm.yearNum, monthLookup hm.monthName, hm.dayNum⟩)
      | none =>
        match cur with
        | some cd =>
          if startsBullet l then ⟨cd, trim ((trim l).drop 1)⟩ :: extractAll ls cur
          else extractAll ls cur
        | none => extractAll ls cur) := rfl

theorem extractLoop_filter (s e : PDate) :
    ∀ (lines : List (List Char)) (cur : Option PDate),
      extractLoop s e lines cur =
        (extractAll lines cur).filter fun r => dateLe s r.date && dateLe r.date e := by
  intro lines
  induction lines with
  | nil => intro cur; rfl
  | cons l ls ih =>
    intro cur
    rw [extractLoop_cons, extractAll_cons]
    cases matchDayHeading l with
    | some hm => exact ih _
    | none =>
      dsimp only
      cases cur with
      | none => exact ih _
      | some cd =>
        dsimp only
        by_cases hsb : startsBullet l = true
        · rw [if_pos hsb, if_pos hsb, List.filter_cons]
          by_cases hin : (dateLe s cd && dateLe cd e) = true
          · rw [if_pos hin, if_pos (by simpa using hin), ih _]
          · rw [if_neg hin, if_neg (by simpa using hin), ih _]
        · rw [if_neg hsb, if_neg hsb]
          exact ih _

/-!  ### Formatter and heading-regex round trip -/

theorem digitChar_toNat (n : Nat) (h : n < 10) : (Char.ofNat (48 + n)).toNat = 48 + n := by
  interval_cases n <;> decide

theorem digitChar_isDigit (n : Nat) (h : n < 10) : isDigitC (Char.ofNat (48 + n)) = true := by
  interval_cases n <;> decide

theorem parseDigits_append_single (A : List Char) (c : Char) :
    parseDigits (A ++ [c]) = 10 * parseDigits A + (c.toNat - 48) := by
  simp [parseDigits, List.foldl_append]
  omega

theorem toDec_ne_nil (n : Nat) : toDec n ≠ [] := by
  rw [toDec]
  split <;> simp

theorem toDec_digits : ∀ n, ∀ c ∈ toDec n, isDigitC c = true := by
  intro n
  induction n using Nat.strong_induction_on with
  | _ n ih =>
    intro c hc
    rw [toDec] at hc
    by_cases h : n < 10
    · rw [dif_pos h] at hc
      rw [List.mem_singleton.mp hc]
      exact digitChar_isDigit n h
    · rw [dif_neg h] at hc
      rcases List.mem_append.mp hc with hc | hc
      · exact ih (n / 10) (Nat.div_lt_self (by omega) (by omega)) c hc
      · rw [List.mem_singleton.mp hc]
        exact digitChar_isDigit (n % 10) (Nat.mod_lt _ (by omega))

theorem parseDigits_toDec : ∀ n, parseDigits (toDec n) = n := by
  intro n
  induction n using Nat.strong_induction_on with
  | _ n ih =>
    rw [toDec]
    by_cases h : n < 10
    · rw [dif_pos h]
      show parseDigits ([] ++ [Char.ofNat (48 + n)]) = n
      rw [parseDigits_append_single, digitChar_toNat n h]
      simp [parseDigits]
    · rw [dif_neg h, parseDigits_append_single,
        ih (n / 10) (Nat.div_lt_self (by omega) (by omega)),
        digitChar_toNat (n % 10) (Nat.mod_lt _ (by omega))]
      omega

theorem suffix_mem (n : Nat) :
    getOrdinalSuffix n = strOf "th" ∨ getOrdinalSuffix n = strOf "st" ∨
      getOrdinalSuffix n = strOf "nd" ∨ getOrdinalSuffix n = strOf "rd" := by
  unfold getOrdinalSuffix
  split
  · next hj =>
    have h4 : (Int.tmod (((n % 100 : Nat) : Int) - 20) 10).toNat < 4 := by omega
    interval_cases h : (Int.tmod (((n % 100 : Nat) : Int) - 20) 10).toNat <;> decide
  · split
    · next hv =>
      interval_cases h : n % 100 <;> decide
    · exact Or.inl rfl

theorem digit_not_ws (c : Char) (h : isDigitC c = true) : isWs c = false := by
  unfold isDigitC at h
  simp only [Bool.and_eq_true, decide_eq_true_eq] at h
  unfold isWs
  simp only [Bool.or_eq_false_iff, decide_eq_false_iff_not]
  refine ⟨⟨⟨⟨⟨?_, ?_⟩, ?_⟩, ?_⟩, ?_⟩, ?_⟩ <;> rintro rfl <;> revert h <;> decide

theorem digit_word (c : Char) (h : isDigitC c = true) : isWordC c = true := by
  unfold isWordC
  rw [h]
  rfl

theorem takeWs1_nonws (l : List Char) (hh : ∀ c ∈ l.head?, isWs c = false) :
    takeWs1 (' ' :: l) = some l := by
  cases l with
  | nil => rfl
  | cons c cs =>
    have hc : isWs c = false := hh c rfl
    have h0 : takeWs1 (' ' :: c :: cs) = some (List.dropWhile isWs (' ' :: c :: cs)) := rfl
    rw [h0, List.dropWhile_cons_of_pos (by decide),
      List.dropWhile_cons_of_neg (by simp [hc])]

theorem takeWhile_all (p : Char → Bool) (l : List Char) (h : ∀ a ∈ l, p a = true) :
    l.takeWhile p = l := by
  have := takeWhile_append_all p l [] h
  simpa using this

theorem dropWhile_all (p : Char → Bool) (l : List Char) (h : ∀ a ∈ l, p a = true) :
    l.dropWhile p = [] := by
  have := dropWhile_append_all p l [] h
  simpa using this

theorem dayAlt_table (wd : Nat) (hwd : wd < 7) (t : List Char) :
    dayAlt (daysTbl.getD wd [] ++ t) = some t := by
  interval_cases wd <;> rfl

theorem takeWs1_day (wd : Nat) (hwd : wd < 7) (t : List Char) :
    takeWs1 (' ' :: (daysTbl.getD wd [] ++ t)) = some (daysTbl.getD wd [] ++ t) := by
  interval_cases wd <;> rfl

theorem month_steps (m : Nat) (hm : m < 12) (t : List Char) :
    takeWs1 (' ' :: (monthsTbl.getD m [] ++ ' ' :: t)) =
        some (monthsTbl.getD m [] ++ ' ' :: t) ∧
      word1 (monthsTbl.getD m [] ++ ' ' :: t) = some (monthsTbl.getD m [], ' ' :: t) ∧
      monthLookup (monthsTbl.getD m []) = some m := by
  interval_cases m <;> exact ⟨rfl, rfl, rfl⟩

theorem suffix_facts (n : Nat) :
    getOrdinalSuffix n ≠ [] ∧ (∀ c ∈ getOrdinalSuffix n, isWordC c = true) ∧
      (∀ c ∈ (getOrdinalSuffix n).head?, isDigitC c = false) := by
  rcases suffix_mem n with h | h | h | h <;> rw [h] <;>
    exact ⟨by decide, by decide, by decide⟩

theorem dayNumPart_build (d : Nat) (r : List Char) :
    dayNumPart (toDec d ++ (getOrdinalSuffix d ++ ',' :: r)) = some (d, r) := by
  obtain ⟨hsne, hsw, hsd⟩ := suffix_facts d
  have hdw : ∀ c ∈ toDec d, isWordC c = true :=
    fun c hc => digit_word c (toDec_digits d c hc)
  have htw : (toDec d ++ (getOrdinalSuffix d ++ ',' :: r)).takeWhile isWordC =
      toDec d ++ getOrdinalSuffix d := by
    rw [takeWhile_append_all isWordC _ _ hdw,
      takeWhile_append_stop isWordC _ _ hsw (by intro b hb; simp at hb; subst hb; decide)]
  have hdw2 : (toDec d ++ (getOrdinalSuffix d ++ ',' :: r)).dropWhile isWordC = ',' :: r := by
    rw [dropWhile_append_all isWordC _ _ hdw,
      dropWhile_append_stop isWordC _ _ hsw (by intro b hb; simp at hb; subst hb; decide)]
  have hk : ((toDec d ++ getOrdinalSuffix d).takeWhile isDigitC) = toDec d := by
    apply takeWhile_append_stop isDigitC _ _ (toDec_digits d)
    exact hsd
  have hw1 : word1 (toDec d ++ (getOrdinalSuffix d ++ ',' :: r)) =
      some (toDec d ++ getOrdinalSuffix d, ',' :: r) := by
    unfold word1
    rw [htw, hdw2, if_neg (by simp [toDec_ne_nil d])]
  unfold dayNumPart
  rw [hw1]
  dsimp only
  rw [if_pos rfl, hk]
  have hlen : (toDec d ++ getOrdinalSuffix d).length - 1 ≥ (toDec d).length := by
    have h1 : 1 ≤ (getOrdinalSuffix d).length := by
      cases hgs : getOrdinalSuffix d with
      | nil => exact absurd hgs hsne
      | cons a as => simp
    simp only [List.length_append]
    omega
  have h1 : 1 ≤ (toDec d).length := by
    cases hd : toDec d with
    | nil => exact absurd hd (toDec_ne_nil d)
    | cons a as => simp
  rw [show min (toDec d).length ((toDec d ++ getOrdinalSuffix d).length - 1) =
    (toDec d).length from by omega]
  rw [if_pos h1, List.take_left, parseDigits_toDec]

theorem lit_cons (c : Char) (xs : List Char) : lit c (c :: xs) = some xs := by
  show (if c = c then some xs else none) = some xs
  rw [if_pos rfl]

theorem matchDayHeading_hashes (X : List Char) :
    matchDayHeading ('#' :: '#' :: ' ' :: X) =
      ((takeWs1 (' ' :: X)).bind fun r2 =>
      (dayAlt r2).bind fun r3 =>
      (lit ',' r3).bind fun r4 =>
      (takeWs1 r4).bind fun r5 =>
      (word1 r5).bind fun mr =>
      (takeWs1 mr.2).bind fun r7 =>
      (dayNumPart r7).bind fun dr =>
      (takeWs1 dr.2).bind fun r9 =>
      (digits1 r9).map fun yr => ⟨mr.1, dr.1, parseDigits yr.1⟩) := rfl

theorem head_digits_not_ws (A X : List Char) (hA : A ≠ [])
    (hd : ∀ c ∈ A, isDigitC c = true) :
    ∀ c ∈ (A ++ X).head?, isWs c = false := by
  cases A with
  | nil => exact absurd rfl hA
  | cons a as =>
    intro c hc
    simp at hc
    subst hc
    exact digit_not_ws a (hd a (by simp))

/-- Parsing `"## " ++ getDateHeading d` with the extractor's heading regex
recovers the rendered month name, day of month and year. -/
theorem matchDayHeading_build (dt : CalDate) (hw : dt.weekday < 7) (hm : dt.month < 12) :
    matchDayHeading (strOf "## " ++ getDateHeading dt) =
      some ⟨monthsTbl.getD dt.month [], dt.day, dt.year⟩ := by
  obtain ⟨y, m, d, wd⟩ := dt
  simp only at hw hm
  unfold getDateHeading
  simp only
  have e0 : strOf "## " ++ (daysTbl.getD wd [] ++ strOf ", " ++ monthsTbl.getD m [] ++
      strOf " " ++ toDec d ++ getOrdinalSuffix d ++ strOf ", " ++ toDec y) =
      '#' :: '#' :: ' ' :: (daysTbl.getD wd [] ++ (',' :: ' ' :: (monthsTbl.getD m [] ++
        ' ' :: (toDec d ++ (getOrdinalSuffix d ++ ',' :: (' ' :: toDec y)))))) := by
    simp only [List.append_assoc]
    rfl
  rw [e0, matchDayHeading_hashes]
  rw [takeWs1_day wd hw _]
  simp only [Option.some_bind]
  rw [dayAlt_table wd hw _]
  simp only [Option.some_bind]
  rw [lit_cons]
  simp only [Option.some_bind]
  rw [(month_steps m hm _).1]
  simp only [Option.some_bind]
  rw [(month_steps m hm _).2.1]
  simp only [Option.some_bind]
  rw [takeWs1_nonws _ (head_digits_not_ws (toDec d) _ (toDec_ne_nil d) (toDec_digits d))]
  simp only [Option.some_bind]
  rw [dayNumPart_build d (' ' :: toDec y)]
  simp only [Option.some_bind]
  rw [show (' ' :: toDec y) = (' ' :: (toDec y ++ [])) from by simp,
    takeWs1_nonws _ (head_digits_not_ws (toDec y) [] (toDec_ne_nil y) (toDec_digits y))]
  simp only [Option.some_bind]
  have hdig : digits1 (toDec y ++ []) = some (toDec y, []) := by
    unfold digits1
    rw [List.append_nil, takeWhile_all _ _ (toDec_digits y),
      dropWhile_all _ _ (toDec_digits y), if_neg (by simp [toDec_ne_nil y])]
  rw [hdig]
  simp only [Option.map_some']
  rw [parseDigits_toDec]

/-!  ### Base64 and the encrypted-token format -/

theorem charSextet_sextetChar (v : Nat) (h : v < 64) : charSextet (sextetChar v) = v := by
  have : ∀ w < 64, charSextet (sextetChar w) = w := by decide
  exact this v h

theorem sextetChar_ne_pad (v : Nat) : sextetChar v ≠ '=' := by
  unfold sextetChar
  by_cases h : v < 64
  · have : ∀ w < 64, b64Alphabet.getD w 'A' ≠ '=' := by decide
    exact this v h
  · rw [List.getD_eq_default _ _ (by rw [show b64Alphabet.length = 64 from rfl]; omega)]
    decide

theorem sextetChar_ne_colon (v : Nat) : sextetChar v ≠ ':' := by
  unfold sextetChar
  by_cases h : v < 64
  · have : ∀ w < 64, b64Alphabet.getD w 'A' ≠ ':' := by decide
    exact this v h
  · rw [List.getD_eq_default _ _ (by rw [show b64Alphabet.length = 64 from rfl]; omega)]
    decide

theorem b64_no_colon : ∀ bs : List Nat, ':' ∉ b64Encode bs
  | [] => by simp [b64Encode]
  | [a] => by
    intro hmem
    simp only [b64Encode, List.mem_cons, List.not_mem_nil, or_false] at hmem
    rcases hmem with h | h | h | h
    · exact sextetChar_ne_colon _ h.symm
    · exact sextetChar_ne_colon _ h.symm
    · exact absurd h (by decide)
    · exact absurd h (by decide)
  | [a, b] => by
    intro hmem
    simp only [b64Encode, List.mem_cons, List.not_mem_nil, or_false] at hmem
    rcases hmem with h | h | h | h
    · exact sextetChar_ne_colon _ h.symm
    · exact sextetChar_ne_colon _ h.symm
    · exact sextetChar_ne_colon _ h.symm
    · exact absurd h (by decide)
  | a :: b :: c :: rest => by
    intro hmem
    simp only [b64Encode, List.mem_cons] at hmem
    rcases hmem with h | h | h | h | h
    · exact sextetChar_ne_colon _ h.symm
    · exact sextetChar_ne_colon _ h.symm
    · exact sextetChar_ne_colon _ h.symm
    · exact sextetChar_ne_colon _ h.symm
    · exact b64_no_colon rest h

theorem b64_decode_encode : ∀ bs : List Nat, (∀ b ∈ bs, b < 256) →
    b64Decode (b64Encode bs) = bs
  | [], _ => rfl
  | [a], H => by
    have ha : a < 256 := H a (by simp)
    simp only [b64Encode, b64Decode]
    simp only [if_true]
    rw [charSextet_sextetChar (a / 4) (by omega),
      charSextet_sextetChar (a % 4 * 16) (by omega)]
    congr 1
    omega
  | [a, b], H => by
    have ha : a < 256 := H a (by simp)
    have hb : b < 256 := H b (by simp)
    simp only [b64Encode, b64Decode]
    rw [if_neg (sextetChar_ne_pad (b % 16 * 4))]
    simp only [if_true]
    rw [charSextet_sextetChar (a / 4) (by omega),
      charSextet_sextetChar (a % 4 * 16 + b / 16) (by omega),
      charSextet_sextetChar (b % 16 * 4) (by omega)]
    congr 1
    · omega
    congr 1
    omega
  | a :: b :: c :: rest, H => by
    have ha : a < 256 := H a (by simp)
    have hb : b < 256 := H b (by simp)
    have hc : c < 256 := H c (by simp)
    simp only [b64Encode, b64Decode]
    rw [if_neg (sextetChar_ne_pad (b % 16 * 4 + c / 64)),
      if_neg (sextetChar_ne_pad (c % 64))]
    rw [charSextet_sextetChar (a / 4) (by omega),
      charSextet_sextetChar (a % 4 * 16 + b / 16) (by omega),
      charSextet_sextetChar (b % 16 * 4 + c / 64) (by omega),
      charSextet_sextetChar (c % 64) (by omega)]
    rw [show b64Decode (b64Encode rest) = rest from
      b64_decode_encode rest fun x hx => H x (by simp [hx])]
    congr 1
    · omega
    congr 1
    · omega
    congr 1
    omega

theorem splitOnC_cons (sep c : Char) (cs : List Char) :
    splitOnC sep (c :: cs) =
      if c = sep then [] :: splitOnC sep cs
      else
        match splitOnC sep cs with
        | [] => [[c]]
        | l :: ls => (c :: l) :: ls := rfl

theorem splitOnC_no_sep (sep : Char) (l : List Char) (h : sep ∉ l) :
    splitOnC sep l = [l] := by
  induction l with
  | nil => rfl
  | cons c cs ih =>
    have hc : ¬c = sep := fun hcc => h (by simp [hcc])
    rw [splitOnC_cons, if_neg hc, ih fun hcc => h (by simp [hcc])]

theorem splitOnC_append_sep (sep : Char) (x rest : List Char) (hx : sep ∉ x) :
    splitOnC sep (x ++ sep :: rest) = x :: splitOnC sep rest := by
  induction x with
  | nil =>
    rw [List.nil_append, splitOnC_cons, if_pos rfl]
  | cons c cs ih =>
    have hc : ¬c = sep := fun hcc => hx (by simp [hcc])
    rw [show (c :: cs) ++ sep :: rest = c :: (cs ++ sep :: rest) from rfl,
      splitOnC_cons, if_neg hc, ih fun hcc => hx (by simp [hcc])]

theorem splitOnC_three (p0 p1 p2 : List Char) (h0 : ':' ∉ p0) (h1 : ':' ∉ p1)
    (h2 : ':' ∉ p2) :
    splitOnC ':' (p0 ++ ':' :: (p1 ++ ':' :: p2)) = [p0, p1, p2] := by
  rw [splitOnC_append_sep ':' p0 _ h0, splitOnC_append_sep ':' p1 _ h1,
    splitOnC_no_sep ':' p2 h2]

theorem lastBulletIdx_none :
    ∀ ps : List (List Char), (∀ p ∈ ps, isBulletPara p = false) →
      ∀ i, lastBulletIdx i none ps = none := by
  intro ps
  induction ps with
  | nil => intro _ _; rfl
  | cons p ps ih =>
    intro H i
    have hp : isBulletPara p = false := H p (by simp)
    rw [lastBulletIdx, hp, if_neg (by decide)]
    exact ih (fun q hq => H q (by simp [hq])) (i + 1)

/-!  ## The claims -/

/-- Claim C1 says every append with no existing paragraph containing the
heading creates the new Group as a *trailing* section, after all previous
Groups.  Refuted: after one Tuesday entry, a Monday append (whose heading
occurs in no paragraph) places the Monday heading at character offset 19,
before the Tuesday heading at offset 50 — the new Group lands right after
the title, ahead of the older Group. -/
theorem c1_counterexample :
    ((splitParas docOneGroup).all fun p => !hasSub monHeading (trim p)) = true ∧
    subIdx (strOf "## " ++ monHeading) docTwoGroups = some 19 ∧
    subIdx (strOf "## " ++ tueHeading) docTwoGroups = some 50 := by
  decide

/-- Claim C1, amended: when no paragraph contains the heading and a title
paragraph exists at index `k`, `appendEntry` inserts the new section (a
blank line, the `## ` heading line, the bullet line) immediately after the
title paragraph — before all previous Groups — leaving the text on both
sides unchanged. -/
theorem c1_new_section_after_title (text h e : List Char)
    (H : ∀ p ∈ splitParas text, hasSub h (trim p) = false)
    (k : Nat) (Hk : firstIdx titleMarkerPara (splitParas text) = some k) :
    appendEntry text h e =
      ((splitParas text).take (k + 1)).flatten ++
        ('\n' :: '#' :: '#' :: ' ' :: (h ++ ['\n'])) ++ bulletLine e ++
        ((splitParas text).drop (k + 1)).flatten :=
  appendEntry_nofind text h e H k Hk

/-- Witness for C1 at a concrete input: appending to a fresh document. -/
theorem c1_new_section_after_title_witness :
    appendEntry initialDoc monHeading (strOf "a") =
      ((splitParas initialDoc).take 1).flatten ++
        ('\n' :: '#' :: '#' :: ' ' :: (monHeading ++ ['\n'])) ++
        bulletLine (strOf "a") ++
        ((splitParas initialDoc).drop 1).flatten :=
  c1_new_section_after_title initialDoc monHeading (strOf "a") (by decide) 0
    (by decide)

/-- Claim C2 says the Group extends up to the next paragraph matching the
day pattern for ANY day.  Refuted: in `dupDoc` a bare paragraph repeating
the Monday heading text matches the day pattern, so the claimed stop gives
offset 48, but the code skips that paragraph with `continue` (it contains
the target heading) before testing the pattern and returns offset 75. -/
theorem c2_counterexample :
    specGroupIdx dupDoc monHeading = some 48 ∧
    findInsertPosition dupDoc monHeading = ⟨75, false⟩ := by
  decide

/-- Claim C2, amended: when paragraph `i0` is the first containing the
target heading, `findInsertPosition` returns `needsNewHeading = false` and
the trailing offset (`endIndex - 1`) of the paragraph before the next
day-pattern paragraph that does NOT itself contain the target heading
(paragraphs containing the heading are skipped before the pattern test),
or before the document end if there is none. -/
theorem c2_group_end_at_code_break (text h : List Char) (i0 : Nat)
    (Hfi : firstIdx (fun p => hasSub h (trim p)) (splitParas text) = some i0) :
    findInsertPosition text h =
      ⟨paraEnd (splitParas text)
          (groupStop (codeBreak h) (splitParas text) i0 - 1) - 1, false⟩ :=
  findInsertPosition_found text h i0 Hfi

/-- Witness for C2 at a concrete input: the two-group document, whose
Monday group is the paragraph block starting at index 2. -/
theorem c2_group_end_at_code_break_witness :
    findInsertPosition docTwoGroups monHeading =
      ⟨paraEnd (splitParas docTwoGroups)
          (groupStop (codeBreak monHeading) (splitParas docTwoGroups) 2 - 1) - 1,
        false⟩ :=
  c2_group_end_at_code_break docTwoGroups monHeading 2 (by decide)

/-- Claim C3 says N same-day appends give that Group exactly N Entries and
leave every prior Group unchanged.  Code bug: the break regex tests
`/^(Monday|...),/` against the raw paragraph, which never matches the
`## `-prefixed headings the writer produces, so the scan for an existing
heading runs to the document end and the second Monday entry `b` is
inserted at the very end — inside the Tuesday Group.  Extraction of
`docBug` (Tuesday entry `x`, then Monday entries `a`, `b`) shows the
Monday Group (June 2nd) with a single entry and the pre-existing Tuesday
Group (June 3rd) changed to two entries. -/
theorem c3_same_day_appends_leak_into_older_group :
    extractRecords docBug =
      [⟨⟨2025, some 5, 2⟩, strOf "a"⟩, ⟨⟨2025, some 5, 3⟩, strOf "x"⟩,
        ⟨⟨2025, some 5, 3⟩, strOf "b"⟩] ∧
    ((extractRecords docBug).filter fun r =>
        r.date = ⟨2025, some 5, 2⟩).map EntryRec.text = [strOf "a"] ∧
    ((extractRecords docBug).filter fun r =>
        r.date = ⟨2025, some 5, 3⟩).map EntryRec.text = [strOf "x", strOf "b"] := by
  decide

/-- Claim C4: after N appends (headed `h`, entries `e1 :: rest`) to a
fresh document, undo removes exactly the last bullet paragraph — found by
a forward scan remembering the last match — and returns its text; on a
document with no bullet paragraph it returns the empty-result marker
`none` rather than an error. -/
theorem c4_undo_removes_last_entry (h e1 : List Char) (rest : List (List Char))
    (Hh1 : h ≠ []) (Hh2 : ∀ c ∈ h, c ≠ '\n') (Hh4 : trimR h = h)
    (Hh5 : hasSub h (strOf "# Daily Check-ins") = false)
    (He1 : (∀ c ∈ e1, c ≠ '\n') ∧ trimL e1 = e1 ∧ trimR e1 = e1 ∧ e1 ≠ [])
    (Hrest : ∀ e ∈ rest, (∀ c ∈ e, c ≠ '\n') ∧ trimL e = e ∧ trimR e = e ∧ e ≠ [])
    (t : List Char) (Ht : ∀ p ∈ splitParas t, isBulletPara p = false) :
    removeLastEntry (appendN h (e1 :: rest) initialDoc) =
      some ((e1 :: rest).getLast (by simp),
        if rest = [] then strOf "# Daily Check-ins\n\n## " ++ h ++ strOf "\n\n\n"
        else dayLogDoc h e1 rest.dropLast) ∧
    removeLastEntry t = none := by
  constructor
  · rw [appendN_dayLog h e1 Hh1 Hh2 Hh4 Hh5 He1.1 rest fun e he => (Hrest e he).1]
    exact removeLastEntry_dayLog h e1 rest Hh1 Hh2 Hh4 He1 Hrest
  · unfold removeLastEntry
    dsimp only
    rw [lastBulletIdx_none (splitParas t) Ht 0]

/-- Witness for C4 at a concrete input: two Monday appends then undo, and
undo on the freshly created (entry-free) document. -/
theorem c4_undo_removes_last_entry_witness :
    removeLastEntry (appendN monHeading [strOf "a", strOf "b"] initialDoc) =
      some (strOf "b", dayLogDoc monHeading (strOf "a") []) ∧
    removeLastEntry initialDoc = none := by
  have := c4_undo_removes_last_entry monHeading (strOf "a") [strOf "b"]
    (by decide) (by decide) (by decide) (by decide)
    ⟨by decide, by decide, by decide, by decide⟩
    (by decide) initialDoc (by decide)
  exact this

/-- Claim C5: `appendEntry` issues exactly one batch update holding one
insertion at the resolved offset; with `needsNewHeading` the text is a
newline, the group marker `##`, a space, the heading, a newline and the
bullet line, otherwise the bullet line alone. -/
theorem c5_single_insertion (text h entry : List Char) :
    appendRequests text h entry =
      [⟨(findInsertPosition text h).index,
        if (findInsertPosition text h).needsNewHeading then
          strOf "\n" ++ strOf "##" ++ strOf " " ++ h ++ strOf "\n" ++
            bulletLine entry
        else bulletLine entry⟩] := by
  unfold appendRequests
  dsimp only
  cases findInsertPosition text h with
  | mk idx nnh => cases nnh <;> rfl

/-- Claim C6: with no paragraph containing the target heading the
resolver does not fail: it returns `needsNewHeading = true` at the offset
just past the first title-marker paragraph, or the constant fallback 2
when no such paragraph exists (in particular on an empty document). -/
theorem c6_fallback_after_title_or_two (text h : List Char)
    (H : ∀ p ∈ splitParas text, hasSub h (trim p) = false) :
    findInsertPosition text h = ⟨(firstTitleEnd text).getD 2, true⟩ :=
  findInsertPosition_nofind text h H

/-- Witness for C6 at concrete inputs: the empty document (no title
marker, offset 2) and the fresh document (title end 19). -/
theorem c6_fallback_after_title_or_two_witness :
    findInsertPosition [] monHeading = ⟨(firstTitleEnd []).getD 2, true⟩ ∧
    findInsertPosition initialDoc monHeading =
      ⟨(firstTitleEnd initialDoc).getD 2, true⟩ ∧
    (firstTitleEnd []).getD 2 = 2 ∧ (firstTitleEnd initialDoc).getD 2 = 19 :=
  ⟨c6_fallback_after_title_or_two [] monHeading (by decide),
    c6_fallback_after_title_or_two initialDoc monHeading (by decide),
    by decide, by decide⟩

/-- Claim C7: the date-range retrieval equals the unfiltered extraction
sequence post-filtered to the records whose day lies in
`[startDate, endDate]` inclusive (JS date comparison, so records with an
unparsable month are dropped); with entries on days D1 < D2 < D3 a range
`[D1, D2]` therefore keeps exactly the D1 and D2 records. -/
theorem c7_range_is_inclusive_post_filter (text : List Char) (s e : PDate) :
    getEntriesForDateRange text s e =
      (extractRecords text).filter fun r => dateLe s r.date && dateLe r.date e :=
  extractLoop_filter s e (splitOnC '\n' text) none

/-- Claim C8: when the Gemini key is absent or the LLM call fails,
`refineEntry` still returns — falling back to the deterministic
`cleanupEntry`, which trims, collapses whitespace runs, strips leading
bullet markers, splits on commas and semicolons not followed by a digit,
and joins the trimmed nonempty pieces as bullet lines. -/
theorem c8_fallback_to_cleanup (apiKey : Bool) (llm : Except Unit (List Char))
    (raw : List Char) (H : apiKey = false ∨ llm = Except.error ()) :
    refineEntry apiKey llm raw = cleanupEntry raw ∧
    cleanupEntry raw =
      List.intercalate (strOf "\n• ")
        (((splitCS (stripBullets (normWs (trim raw)))).map trim).filter
          (· ≠ [])) := by
  refine ⟨?_, rfl⟩
  unfold refineEntry
  rcases H with H | H
  · rw [H]
    rfl
  · subst H
    cases apiKey <;> rfl

/-- Witness for C8 at a concrete input: a failing LLM call on a raw text
with a bullet marker and a comma split. -/
theorem c8_fallback_to_cleanup_witness :
    refineEntry false (Except.error ()) (strOf "- fixed bug, did review") =
      cleanupEntry (strOf "- fixed bug, did review") ∧
    cleanupEntry (strOf "- fixed bug, did review") =
      strOf "fixed bug\n• did review" :=
  ⟨(c8_fallback_to_cleanup false (Except.error ())
      (strOf "- fixed bug, did review") (Or.inl rfl)).1, by decide⟩

/-- Claim C9: with a 32-byte key and a 16-byte IV, and the GCM primitive
inverting its own output, `decrypt` recovers the exact plaintext from
`encrypt` whatever the IV; `encrypt` always yields exactly three
colon-separated base64 parts (IV, auth tag, ciphertext); and `decrypt`
rejects any input whose colon split is not three parts with the
`Invalid encrypted data format` error. -/
theorem c9_roundtrip_and_format (C : GcmCipher) (key iv pt : List Nat)
    (Hkey : key.length = 32) (Hiv : iv.length = 16)
    (Hinv : C.undo key iv (C.run key iv pt).2 (C.run key iv pt).1 = some pt)
    (Hivb : ∀ b ∈ iv, b < 256) (Htag : ∀ b ∈ (C.run key iv pt).2, b < 256)
    (Hct : ∀ b ∈ (C.run key iv pt).1, b < 256) :
    decrypt C key (encrypt C key iv pt) = Except.ok pt ∧
    (splitOnC ':' (encrypt C key iv pt)).length = 3 ∧
    ∀ s, (splitOnC ':' s).length ≠ 3 →
      decrypt C key s = Except.error (strOf "Invalid encrypted data format") := by
  have hsplit : splitOnC ':' (encrypt C key iv pt) =
      [b64Encode iv, b64Encode (C.run key iv pt).2,
        b64Encode (C.run key iv pt).1] := by
    unfold encrypt
    dsimp only
    exact splitOnC_three _ _ _ (b64_no_colon _) (b64_no_colon _) (b64_no_colon _)
  refine ⟨?_, by rw [hsplit]; rfl, ?_⟩
  · unfold decrypt
    rw [hsplit]
    dsimp only
    rw [b64_decode_encode iv Hivb, b64_decode_encode _ Htag,
      b64_decode_encode _ Hct, Hinv]
  · intro s2 hs
    unfold decrypt
    cases h0 : splitOnC ':' s2 with
    | nil => rfl
    | cons p0 t0 =>
      cases t0 with
      | nil => rfl
      | cons p1 t1 =>
        cases t1 with
        | nil => rfl
        | cons p2 t2 =>
          cases t2 with
          | nil => exact absurd (by rw [h0]; rfl) hs
          | cons p3 t3 => rfl

/-- Witness for C9 at a concrete input: the trivial cipher, the zero key,
a constant IV, plaintext bytes `[72, 105]`, and a two-part malformed
string. -/
theorem c9_roundtrip_and_format_witness :
    decrypt trivialGcm (List.replicate 32 0)
        (encrypt trivialGcm (List.replicate 32 0) (List.replicate 16 7)
          [72, 105]) = Except.ok [72, 105] ∧
    (splitOnC ':' (encrypt trivialGcm (List.replicate 32 0)
        (List.replicate 16 7) [72, 105])).length = 3 ∧
    decrypt trivialGcm (List.replicate 32 0) (strOf "ab:cd") =
      Except.error (strOf "Invalid encrypted data format") := by
  have := c9_roundtrip_and_format trivialGcm (List.replicate 32 0)
    (List.replicate 16 7) [72, 105] (by decide) (by decide) rfl
    (by decide) (by decide) (by decide)
  exact ⟨this.1, this.2.1, this.2.2 (strOf "ab:cd") (by decide)⟩

/-- Claim C10: for a calendar date with a valid weekday and month, the
heading printed by `getDateHeading`, prefixed with the `## ` group marker
and parsed by the extractor regex, gives back exactly the same day and
year captures, and its month name resolves through the extractor month
table to the same month index. -/
theorem c10_heading_parses_back (dt : CalDate) (hw : dt.weekday < 7)
    (hm : dt.month < 12) :
    matchDayHeading (strOf "## " ++ getDateHeading dt) =
      some ⟨monthsTbl.getD dt.month [], dt.day, dt.year⟩ ∧
    monthLookup (monthsTbl.getD dt.month []) = some dt.month :=
  ⟨matchDayHeading_build dt hw hm, (month_steps dt.month hm []).2.2⟩

/-- Witness for C10 at a concrete input: Monday, June 2nd 2025. -/
theorem c10_heading_parses_back_witness :
    matchDayHeading (strOf "## " ++ getDateHeading ⟨2025, 5, 2, 1⟩) =
      some ⟨monthsTbl.getD 5 [], 2, 2025⟩ ∧
    monthLookup (monthsTbl.getD 5 []) = some 5 :=
  c10_heading_parses_back ⟨2025, 5, 2, 1⟩ (by decide) (by decide)

end LogLine
